import Mathlib

/-!
Verification development for the `mlx-sys` build pipeline (`src/mlx-sys/build.rs`).

The build script is shallowly embedded here:

* strings are modelled as `List Char` where rewriting must be analysed,
  and as `String` where they are only carried around;
* the filesystem is modelled as an association list from paths
  (`List String` of components) to nodes (file / directory / symbolic link);
* each fallible native operation becomes an `Option`/`Except` value;
* the emitted `cargo:` lines become explicit effect lists.

Every definition is translated from the Rust source, never from the
prose specification.
-/

namespace MlxSys

/-! ### Generic list prefix machinery -/

/-- Boolean prefix test on lists (used for both paths and character lists). -/
def isPrefixList {α : Type} [DecidableEq α] : List α → List α → Bool
  | [], _ => true
  | _ :: _, [] => false
  | a :: as, b :: bs => if a = b then isPrefixList as bs else false

/-! ### Non-overlapping string replacement (`str::replace`)

`prepare_mlx_c_source` rewrites the staged `CMakeLists.txt` with
`cmake_content.replace("GIT_TAG v0.30.6)", ...)`.  Rust's `str::replace`
substitutes every non-overlapping match, scanning left to right; with an
empty pattern it inserts the replacement at every character boundary. -/

/-- Fuel-indexed worker for `replaceAll`.  Each recursive step consumes at
least one character of `s`, so `s.length + 1` units of fuel always suffice;
the fuel only makes the recursion structural (hence kernel-computable). -/
def replaceAllAux (pat rep : List Char) : Nat → List Char → List Char
  | 0, s => s
  | Nat.succ _, [] => if isPrefixList pat ([] : List Char) then rep else []
  | Nat.succ f, c :: t =>
    if pat ≠ [] ∧ isPrefixList pat (c :: t) = true then
      rep ++ replaceAllAux pat rep f (t.drop (pat.length - 1))
    else if pat = [] then
      rep ++ c :: replaceAllAux pat rep f t
    else
      c :: replaceAllAux pat rep f t

/-- Left-to-right, non-overlapping replacement of every occurrence of `pat`
by `rep` in `s` (the semantics of Rust's `str::replace`). -/
def replaceAll (pat rep : List Char) (s : List Char) : List Char :=
  replaceAllAux pat rep (s.length + 1) s

/-- Number of positions (counting every suffix, including the empty one)
where `pat` occurs in `s`. -/
def occCount (pat : List Char) (s : List Char) : Nat :=
  (if isPrefixList pat s then 1 else 0) +
    match s with
    | [] => 0
    | _ :: t => occCount pat t

/-! ### Patch Injector (from `prepare_mlx_c_source`, build.rs lines 79–87)

The staged `CMakeLists.txt` content is rewritten with
`content.replace("GIT_TAG v0.30.6)", "GIT_TAG v0.30.6\n    PATCH_COMMAND ... || true)")`. -/

def gitTagMarker : List Char := "GIT_TAG v0.30.6)".toList

def gitTagReplacement : List Char :=
  "GIT_TAG v0.30.6\n    PATCH_COMMAND git apply $\x7bCMAKE_CURRENT_SOURCE_DIR\x7d/patches/metallib-search-path.patch || true)".toList

/-- The token identifying an inserted patch-application directive. -/
def patchDirectiveToken : List Char := "PATCH_COMMAND".toList

/-- The Patch Injector's rewrite of the staged build descriptor. -/
def injectPatchDirective (content : List Char) : List Char :=
  replaceAll gitTagMarker gitTagReplacement content

/-! ### Toolchain Resolver: deployment target (`resolve_deployment_target`)

Rust: `env::var("MACOSX_DEPLOYMENT_TARGET").unwrap_or_else(|_| "14.0".to_string())`.
The environment lookup is modelled as an `Option String`. -/

def resolveDeploymentTarget (envVar : Option String) : String :=
  match envVar with
  | some v => v
  | none => "14.0"

/-! ### Link Wiring (`build_and_link_mlx_c`, build.rs lines 175–199)

Each `println!("cargo:...")` becomes one `Directive` value; the list keeps
the emission order of the source. -/

inductive Directive where
  | linkSearchNative (path : String)
  | linkSearch (path : String)
  | linkStaticLib (name : String)
  | linkLib (name : String)
  | linkDylib (name : String)
  | linkFramework (name : String)
  | warning (msg : String)
deriving DecidableEq

/-- The link directives emitted after a successful native build.
`dstDisplay` is the display form of the build output directory, `metal` and
`accelerate` are the two feature toggles, and `clangRt` is the result of the
`find_clang_rt_path` probe. -/
def linkDirectives (dstDisplay : String) (metal accelerate : Bool)
    (clangRt : Option String) : List Directive :=
  [Directive.linkSearchNative (dstDisplay ++ "/build/lib"),
   Directive.linkStaticLib "mlx",
   Directive.linkStaticLib "mlxc",
   Directive.linkLib "c++",
   Directive.linkDylib "objc",
   Directive.linkFramework "Foundation"] ++
  (if metal then [Directive.linkFramework "Metal"] else []) ++
  (if accelerate then [Directive.linkFramework "Accelerate"] else []) ++
  (match clangRt with
   | some p => [Directive.linkSearch p, Directive.linkStaticLib "clang_rt.osx"]
   | none => [])

/-! ### Runtime-symbol fallback probe (`find_clang_rt_path`, build.rs lines 7–45) -/

/-- Result of a `Command::output()` call: `none` models a spawn error
(`.ok()?`), otherwise exit status plus captured stdout. -/
structure CmdOut where
  success : Bool
  stdout : String
deriving DecidableEq

/-- The external world consulted by the probe: the two developer-tool
commands, the listing of the clang toolchain directory (`none` models a
`read_dir` error; per-entry errors are dropped by `.flatten()` and so are
simply absent from the list), and the file-existence predicate. -/
structure ProbeEnv where
  xcrunSdkPlatformPath : Option CmdOut
  xcodeSelectPrintPath : Option CmdOut
  clangVersionDirs : Option (List String)
  fileExists : String → Bool

/-- Scan the version directories in order; the first whose
`lib/darwin/libclang_rt.osx.a` exists wins. -/
def firstDarwinHit (ex : String → Bool) (base : String) : List String → Option String
  | [] => none
  | n :: rest =>
    let darwinPath := base ++ "/" ++ n ++ "/lib/darwin"
    if ex (darwinPath ++ "/libclang_rt.osx.a") then some darwinPath
    else firstDarwinHit ex base rest

/-- Model of `find_clang_rt_path`. -/
def findClangRtPath (e : ProbeEnv) : Option String :=
  match e.xcrunSdkPlatformPath with
  | none => none
  | some o1 =>
    if !o1.success then none
    else
      match e.xcodeSelectPrintPath with
      | none => none
      | some o2 =>
        if !o2.success then none
        else
          let developerDir := o2.stdout.trim
          let toolchainBase :=
            developerDir ++ "/Toolchains/XcodeDefault.xctoolchain/usr/lib/clang"
          match e.clangVersionDirs with
          | none => none
          | some entries => firstDarwinHit e.fileExists toolchainBase entries

/-! ### Kernel-Bundle Cache (`build_and_link_mlx_c`, build.rs lines 204–240) -/

/-- Filesystem metadata: the modification time, when readable
(`metadata.modified().ok()`). -/
structure MetaData where
  modified : Option Nat
deriving DecidableEq

/-- Rust:
`dest.metadata().and_then(|d| metallib.metadata().map(|s| s.modified().ok().zip(d.modified().ok()).is_some_and(|(src_t, dst_t)| src_t > dst_t))).unwrap_or(false)`
when the destination exists, `true` otherwise.  `destMeta`/`srcMeta` are the
two `metadata()` results (`none` models an I/O error). -/
def shouldCopyMetallib (destExists : Bool) (destMeta srcMeta : Option MetaData) : Bool :=
  if destExists then
    match destMeta with
    | none => false
    | some d =>
      match srcMeta with
      | none => false
      | some s =>
        match s.modified, d.modified with
        | some srcT, some dstT => decide (dstT < srcT)
        | _, _ => false
  else true

/-- One observable action of the caching step. -/
inductive CacheEffect where
  | mkCacheDir (path : String)
  | copyBundle (src dst : String)
  | warn (msg : String)
deriving DecidableEq

/-- The kernel-bundle caching step, as the list of effects it performs, in
order.  Parameters: display form of the build output directory, whether
`mlx.metallib` exists in the build output, the `HOME` variable, whether the
cached entry exists, the two metadata results, and the outcome the
filesystem gives to `fs::copy` when it is attempted. -/
def metallibCacheStep (dstDisplay : String) (metallibExists : Bool)
    (home : Option String) (destExists : Bool) (destMeta srcMeta : Option MetaData)
    (copyResult : Except String Nat) : List CacheEffect :=
  if metallibExists then
    match home with
    | none => []
    | some h =>
      let cacheDir := h ++ "/.cache/pmetal/lib"
      let dest := cacheDir ++ "/mlx.metallib"
      let metallib := dstDisplay ++ "/build/lib/mlx.metallib"
      if shouldCopyMetallib destExists destMeta srcMeta then
        CacheEffect.mkCacheDir cacheDir ::
        CacheEffect.copyBundle metallib dest ::
        (match copyResult with
         | Except.ok _ => [CacheEffect.warn ("Cached mlx.metallib to " ++ dest)]
         | Except.error e => [CacheEffect.warn ("Failed to cache mlx.metallib: " ++ e)])
      else []
  else []

/-! ### Filesystem model

Paths are lists of components; the filesystem is an association list from
paths to nodes, with `lookupFS` playing lstat (first entry wins, and a newly
consed entry shadows an older one, modelling an overwrite). -/

abbrev Path := List String

inductive Node where
  | file (content : List Char)
  | dir
  | symlink (absolute : Bool) (target : Path)
deriving DecidableEq

abbrev FS := List (Path × Node)

def lookupFS : FS → Path → Option Node
  | [], _ => none
  | (q, n) :: rest, p => if q = p then some n else lookupFS rest p

/-- All keys are distinct — true of a real directory tree. -/
def keysNodup (fs : FS) : Prop := (fs.map Prod.fst).Nodup

/-- Rust: `if target.is_absolute() { target } else { entry.path().parent().unwrap().join(&target) }`. -/
def resolveTarget (linkPath : Path) (absolute : Bool) (target : Path) : Path :=
  if absolute then target else linkPath.dropLast ++ target

/-- Resolve a symlink chain at the final path component, as the OS does for
`stat`-like calls; `fuel` bounds the chain length (a cycle never resolves). -/
def statPath (fs : FS) : Nat → Path → Option Path
  | fuel, p =>
    match lookupFS fs p with
    | none => none
    | some (Node.symlink ab t) =>
      match fuel with
      | 0 => none
      | Nat.succ f => statPath fs f (resolveTarget p ab t)
    | some _ => some p

/-- Rust `Path::is_dir` (follows symlinks). -/
def isDirFS (fs : FS) (fuel : Nat) (p : Path) : Bool :=
  match statPath fs fuel p with
  | some q => decide (lookupFS fs q = some Node.dir)
  | none => false

/-- What `fs::copy` reads from its source path: the content of the regular
file the path resolves to (`none` models the I/O error for anything else). -/
def readFileFS (fs : FS) (fuel : Nat) (p : Path) : Option (List Char) :=
  match statPath fs fuel p with
  | some q =>
    match lookupFS fs q with
    | some (Node.file c) => some c
    | _ => none
  | none => none

/-- `Path::exists` (follows symlinks). -/
def existsFS (fs : FS) (fuel : Nat) (p : Path) : Bool :=
  (statPath fs fuel p).isSome

/-- The entry name `q` contributes to a `read_dir` listing of `p`. -/
def childName (p q : Path) : Option String :=
  if isPrefixList p q = true then
    match q.drop p.length with
    | [n] => some n
    | _ => none
  else none

/-- The `read_dir` listing of directory `p` (entry names, in map order). -/
def childNames (fs : FS) (p : Path) : List String :=
  fs.filterMap (fun e => childName p e.1)

/-- The first `i+1`-component prefixes of `p`, shortest first. -/
def prefixesOf (p : Path) : List Path :=
  (List.range p.length).map (fun i => p.take (i + 1))

/-- One step of `create_dir_all`: create the component `q` unless it already
exists (in the accumulator or in the ambient filesystem `base`). -/
def createDirStep (base : FS) (acc : FS) (q : Path) : FS :=
  if (lookupFS acc q).isSome || (lookupFS base q).isSome then acc
  else (q, Node.dir) :: acc

/-- Model of `std::fs::create_dir_all p`: walk the ancestors of `p` from the
top, creating each component that exists neither in the ambient filesystem
`base` nor in the accumulator `out`. -/
def createDirAllFS (base : FS) (out : FS) (p : Path) : FS :=
  (prefixesOf p).foldl (createDirStep base) out

/-- The body of `copy_dir_recursive`'s `for` loop, processing the entries of
the (resolved) source directory `q` in order.  `child` performs the recursive
directory copy: it is instantiated with `copyDirFS` at the next-smaller fuel,
which keeps the recursion structural.  Reads go to the source filesystem
`fs`; created files and directories accumulate in `out`. -/
def copyEntriesFS (fs : FS) (child : Path → Path → FS → Except Unit FS)
    (fuel : Nat) (q dst : Path) : List String → FS → Except Unit FS
  | [], out => Except.ok out
  | n :: rest, out =>
    let sp := q ++ [n]
    let dp := dst ++ [n]
    match lookupFS fs sp with
    | none => Except.error ()
    | some Node.dir =>
      match child sp dp out with
      | Except.error e => Except.error e
      | Except.ok out2 => copyEntriesFS fs child fuel q dst rest out2
    | some (Node.file c) =>
      copyEntriesFS fs child fuel q dst rest ((dp, Node.file c) :: out)
    | some (Node.symlink ab t) =>
      let resolved := resolveTarget sp ab t
      if isDirFS fs fuel resolved then
        match child resolved dp out with
        | Except.error e => Except.error e
        | Except.ok out2 => copyEntriesFS fs child fuel q dst rest out2
      else
        match readFileFS fs fuel resolved with
        | none => Except.error ()
        | some c => copyEntriesFS fs child fuel q dst rest ((dp, Node.file c) :: out)

/-- Model of `copy_dir_recursive(src, dst)`: create the destination
directory, list the (resolved) source directory, and process its entries.
The fuel bounds recursion depth and symlink-chain length; real symlink
cycles make the Rust function diverge, which the model reports as an error
once the fuel is exhausted. -/
def copyDirFS (fs : FS) : Nat → Path → Path → FS → Except Unit FS
  | 0, _, _, _ => Except.error ()
  | Nat.succ f, src, dst, out =>
    let out1 := createDirAllFS fs out dst
    match statPath fs f src with
    | none => Except.error ()
    | some q =>
      if lookupFS fs q = some Node.dir then
        copyEntriesFS fs (fun s d o => copyDirFS fs f s d o) f q dst
          (childNames fs q) out1
      else Except.error ()

/-- The vendored source tree `src/mlx-c` (never to be written). -/
def vendoredPath : Path := ["src", "mlx-c"]

/-- The patch asset `patches/metallib-search-path.patch`. -/
def patchAssetPath : Path := ["patches", "metallib-search-path.patch"]

/-- Model of `std::fs::remove_dir_all root`: drop the root and everything
below it. -/
def removeSubtree (root : Path) (fs : FS) : FS :=
  fs.filter (fun e => !(isPrefixList root e.1))

/-- Model of `prepare_mlx_c_source` (build.rs lines 59–93): clean the staging
directory if it exists, recursively copy `src/mlx-c` into it, create the
`patches` subdirectory, copy the patch asset in, and rewrite the staged
`CMakeLists.txt` through the Patch Injector.  Any filesystem failure aborts
(`expect` in the source). -/
def prepareMlxCSource (fs : FS) (outDir : Path) (fuel : Nat) :
    Except Unit (FS × Path) :=
  let staged := outDir ++ ["mlx-c-staged"]
  let fs1 := if existsFS fs fuel staged then removeSubtree staged fs else fs
  match copyDirFS fs1 fuel vendoredPath staged [] with
  | Except.error e => Except.error e
  | Except.ok out =>
    let fs2 := out ++ fs1
    let fs3 := createDirAllFS ([] : FS) fs2 (staged ++ ["patches"])
    match readFileFS fs3 fuel patchAssetPath with
    | none => Except.error ()
    | some pc =>
      let fs4 := (staged ++ ["patches", "metallib-search-path.patch"],
        Node.file pc) :: fs3
      match readFileFS fs4 fuel (staged ++ ["CMakeLists.txt"]) with
      | none => Except.error ()
      | some cc =>
        Except.ok ((staged ++ ["CMakeLists.txt"],
          Node.file (injectPatchDirective cc)) :: fs4, staged)

/-- Demonstration tree for the staging witnesses: a vendored `src/mlx-c`
tree with a build descriptor containing the version-tag marker, the patch
asset, and the scratch root `out`. -/
def demoPrepFS : FS :=
  [(["src"], Node.dir),
   (["src", "mlx-c"], Node.dir),
   (["src", "mlx-c", "CMakeLists.txt"], Node.file "GIT_TAG v0.30.6)".toList),
   (["patches"], Node.dir),
   (["patches", "metallib-search-path.patch"], Node.file "P".toList),
   (["out"], Node.dir)]

/-- The per-entry view of what the copy places below the destination: the
head component is looked up in the (resolved) source directory `q`; plain
files yield their content at the empty remainder, directories and
directory-symlinks delegate to `rec` (instantiated with `viewFile` at the
next-smaller fuel), and file-symlinks yield the resolved content. -/
def viewEntry (fs : FS) (rec : Path → List String → Option (List Char))
    (fuel : Nat) (q : Path) (n : String) (r' : List String) :
    Option (List Char) :=
  match lookupFS fs (q ++ [n]) with
  | none => none
  | some Node.dir => rec (q ++ [n]) r'
  | some (Node.file c) => if r' = [] then some c else none
  | some (Node.symlink ab t) =>
    let resolved := resolveTarget (q ++ [n]) ab t
    if isDirFS fs fuel resolved then rec resolved r'
    else if r' = [] then readFileFS fs fuel resolved else none

/-- The content of the file that the recursive copy rooted at source `src`
places at relative path `r` below the destination (`none` when the copy
places no file there).  This mirrors `copy_dir_recursive` step for step and
is the specification the copy is proved against. -/
def viewFile (fs : FS) : Nat → Path → List String → Option (List Char)
  | 0, _, _ => none
  | Nat.succ f, src, r =>
    match statPath fs f src with
    | none => none
    | some q =>
      if lookupFS fs q = some Node.dir then
        match r with
        | [] => none
        | n :: r' => viewEntry fs (fun s rr => viewFile fs f s rr) f q n r'
      else none

/-! ### The written-entries invariant of the recursive copy

`copyDirDelta`/`copyEntriesDelta` say that a successful copy only *adds*
entries on top of the accumulator, that no added entry is a symbolic link,
that every added entry is comparable with the destination (below one of the
processed entries), and — when the destination's ancestors already exist —
that every added entry lies strictly inside the destination. -/

def presentIn (fs out : FS) (p : Path) : Prop :=
  (lookupFS out p).isSome = true ∨ (lookupFS fs p).isSome = true

def copyDirDelta (fs : FS) (f : Nat) : Prop :=
  ∀ src dst out out', copyDirFS fs f src dst out = Except.ok out' →
    ∃ Δ, out' = Δ ++ out ∧
      (∀ e ∈ Δ, ∀ ab t, e.2 ≠ Node.symlink ab t) ∧
      (∀ e ∈ Δ, isPrefixList dst e.1 = true ∨ isPrefixList e.1 dst = true) ∧
      ((∀ p ∈ prefixesOf dst, p ≠ dst → presentIn fs out p) →
        ∀ e ∈ Δ, isPrefixList dst e.1 = true)

def copyEntriesDelta (fs : FS) (f : Nat) : Prop :=
  ∀ q dst names out out',
    copyEntriesFS fs (fun s d o => copyDirFS fs f s d o) f q dst names out =
      Except.ok out' →
    ∃ Δ, out' = Δ ++ out ∧
      (∀ e ∈ Δ, ∀ ab t, e.2 ≠ Node.symlink ab t) ∧
      (∀ e ∈ Δ, ∃ m, m ∈ names ∧
        (isPrefixList (dst ++ [m]) e.1 = true ∨
          isPrefixList e.1 (dst ++ [m]) = true)) ∧
      ((∀ p ∈ prefixesOf dst, presentIn fs out p) →
        ∀ e ∈ Δ, ∃ m, m ∈ names ∧ isPrefixList (dst ++ [m]) e.1 = true)

def copyDirPlace (fs : FS) (f : Nat) : Prop :=
  ∀ src dst out out' r c, copyDirFS fs f src dst out = Except.ok out' →
    viewFile fs f src r = some c →
    lookupFS out' (dst ++ r) = some (Node.file c)

def copyEntriesPlace (fs : FS) (f : Nat) : Prop :=
  ∀ q dst names out out' n r' c,
    copyEntriesFS fs (fun s d o => copyDirFS fs f s d o) f q dst names out =
      Except.ok out' →
    names.Nodup → n ∈ names →
    viewEntry fs (fun s rr => viewFile fs f s rr) f q n r' = some c →
    lookupFS out' (dst ++ n :: r') = some (Node.file c)

/-- When an entry is a directory — or a symlink resolving to a directory —
the copy places a real directory node at the corresponding (fresh)
destination path. -/
def copyEntriesDirNode (fs : FS) (f : Nat) : Prop :=
  ∀ q dst names out out' n,
    copyEntriesFS fs (fun s d o => copyDirFS fs f s d o) f q dst names out =
      Except.ok out' →
    names.Nodup → n ∈ names →
    (lookupFS fs (q ++ [n]) = some Node.dir ∨
      ∃ ab t, lookupFS fs (q ++ [n]) = some (Node.symlink ab t) ∧
        isDirFS fs f (resolveTarget (q ++ [n]) ab t) = true) →
    lookupFS fs (dst ++ [n]) = none →
    lookupFS out (dst ++ [n]) = none →
    lookupFS out' (dst ++ [n]) = some Node.dir

/-- Demonstration tree for the C3 witness: `s/current` is a relative symlink
to the sibling directory `s/v2` containing `x.txt`. -/
def demoSymFS : FS :=
  [(["s"], Node.dir),
   (["s", "v2"], Node.dir),
   (["s", "v2", "x.txt"], Node.file "hi".toList),
   (["s", "current"], Node.symlink false ["v2"])]

def demoSymOut : FS :=
  match copyDirFS demoSymFS 5 ["s"] ["d"] [] with
  | Except.ok o => o
  | Except.error _ => []

def demoPrepOut : FS :=
  match prepareMlxCSource demoPrepFS ["out"] 6 with
  | Except.ok (f, _) => f
  | Except.error _ => []

/-! ### Theorems -/

theorem isPrefixList_iff {α : Type} [DecidableEq α] :
    ∀ p q : List α, isPrefixList p q = true ↔ ∃ r, q = p ++ r
  | [], q => by simp [isPrefixList]
  | _ :: _, [] => by simp [isPrefixList]
  | a :: as, b :: bs => by
    simp only [isPrefixList]
    by_cases hab : a = b
    · subst hab
      rw [if_pos rfl, isPrefixList_iff as bs]
      constructor
      · rintro ⟨r, rfl⟩; exact ⟨r, rfl⟩
      · rintro ⟨r, hr⟩
        injection hr with _ h2
        exact ⟨r, h2⟩
    · rw [if_neg hab]
      constructor
      · intro h; simp at h
      · rintro ⟨r, hr⟩
        injection hr with h1 _
        exact absurd h1.symm hab

theorem isPrefixList_refl {α : Type} [DecidableEq α] (p : List α) :
    isPrefixList p p = true :=
  (isPrefixList_iff p p).2 ⟨[], by simp⟩

theorem isPrefixList_append {α : Type} [DecidableEq α] (p r : List α) :
    isPrefixList p (p ++ r) = true :=
  (isPrefixList_iff p (p ++ r)).2 ⟨r, rfl⟩

theorem isPrefixList_trans {α : Type} [DecidableEq α] {p q r : List α}
    (h1 : isPrefixList p q = true) (h2 : isPrefixList q r = true) :
    isPrefixList p r = true := by
  obtain ⟨u, rfl⟩ := (isPrefixList_iff p q).1 h1
  obtain ⟨v, rfl⟩ := (isPrefixList_iff (p ++ u) _).1 h2
  exact (isPrefixList_iff _ _).2 ⟨u ++ v, by simp⟩

theorem length_le_of_isPrefixList {α : Type} [DecidableEq α] {p q : List α}
    (h : isPrefixList p q = true) : p.length ≤ q.length := by
  obtain ⟨r, rfl⟩ := (isPrefixList_iff p q).1 h
  simp

theorem eq_of_isPrefixList_of_length {α : Type} [DecidableEq α] {p q : List α}
    (h : isPrefixList p q = true) (hl : q.length ≤ p.length) : p = q := by
  obtain ⟨r, rfl⟩ := (isPrefixList_iff p q).1 h
  have : r = [] := by
    cases r with
    | nil => rfl
    | cons x xs => simp at hl
  simp [this]

theorem isPrefixList_take {α : Type} [DecidableEq α] (n : Nat) (l : List α) :
    isPrefixList (l.take n) l = true := by
  refine (isPrefixList_iff _ _).2 ⟨l.drop n, ?_⟩
  rw [List.take_append_drop]

/-- Two prefixes of the same list are comparable. -/
theorem isPrefixList_comparable_of_common {α : Type} [DecidableEq α] {p q r : List α}
    (h1 : isPrefixList p r = true) (h2 : isPrefixList q r = true) :
    isPrefixList p q = true ∨ isPrefixList q p = true := by
  obtain ⟨u, hu⟩ := (isPrefixList_iff p r).1 h1
  obtain ⟨v, hv⟩ := (isPrefixList_iff q r).1 h2
  rcases Nat.le_total p.length q.length with hle | hle
  · left
    have hp : q.take p.length = p := by
      have : r.take p.length = p := by rw [hu, List.take_left]
      rw [hv] at this
      rwa [List.take_append_of_le_length hle] at this
    rw [← hp]
    exact isPrefixList_take _ _
  · right
    have hq : p.take q.length = q := by
      have : r.take q.length = q := by rw [hv, List.take_left]
      rw [hu] at this
      rwa [List.take_append_of_le_length hle] at this
    rw [← hq]
    exact isPrefixList_take _ _

/-- A prefix of `d ++ [n]` whose length is at most that of `d` is a prefix of `d`. -/
theorem isPrefixList_of_snoc_short {α : Type} [DecidableEq α] {p d : List α} {n : α}
    (h : isPrefixList p (d ++ [n]) = true) (hl : p.length ≤ d.length) :
    isPrefixList p d = true := by
  obtain ⟨r, hr⟩ := (isPrefixList_iff p (d ++ [n])).1 h
  have hp : d.take p.length = p := by
    have : (d ++ [n]).take p.length = p := by rw [hr, List.take_left]
    rwa [List.take_append_of_le_length hl] at this
  rw [← hp]
  exact isPrefixList_take _ _

/-- If `d ++ n :: r1` is a prefix of `d ++ m :: r2`, the head components agree. -/
theorem head_eq_of_isPrefixList_append {α : Type} [DecidableEq α]
    {d r1 r2 : List α} {n m : α}
    (h : isPrefixList (d ++ n :: r1) (d ++ m :: r2) = true) : n = m := by
  induction d with
  | nil =>
    simp only [List.nil_append, isPrefixList] at h
    by_cases hnm : n = m
    · exact hnm
    · rw [if_neg hnm] at h; exact absurd h (by simp)
  | cons a as ih =>
    simp only [List.cons_append, isPrefixList, if_pos rfl] at h
    exact ih h

/-- Sibling subtrees are incomparable: a path extending `d ++ [n]` is never
comparable with `d ++ [m]` when `n ≠ m`. -/
theorem sibling_incomparable {α : Type} [DecidableEq α] {d r : List α} {n m : α}
    (hnm : n ≠ m) :
    isPrefixList (d ++ [m]) (d ++ [n] ++ r) = false ∧
    isPrefixList (d ++ [n] ++ r) (d ++ [m]) = false := by
  constructor
  · cases hx : isPrefixList (d ++ [m]) (d ++ [n] ++ r) with
    | false => rfl
    | true =>
      rw [show d ++ [n] ++ r = d ++ n :: r by simp,
        show d ++ [m] = d ++ m :: ([] : List α) by simp] at hx
      exact absurd (head_eq_of_isPrefixList_append hx) (Ne.symm hnm)
  · cases hx : isPrefixList (d ++ [n] ++ r) (d ++ [m]) with
    | false => rfl
    | true =>
      rw [show d ++ [n] ++ r = d ++ n :: r by simp,
        show d ++ [m] = d ++ m :: ([] : List α) by simp] at hx
      exact absurd (head_eq_of_isPrefixList_append hx) hnm

theorem occCount_nil (pat : List Char) :
    occCount pat [] = if isPrefixList pat [] then 1 else 0 := by
  rw [occCount]
  exact Nat.add_zero _

theorem occCount_cons (pat : List Char) (c : Char) (t : List Char) :
    occCount pat (c :: t) =
      (if isPrefixList pat (c :: t) then 1 else 0) + occCount pat t := by
  rw [occCount]

/-- Occurrences in a suffix are occurrences in the whole list. -/
theorem occCount_le_append (pat a b : List Char) :
    occCount pat b ≤ occCount pat (a ++ b) := by
  induction a with
  | nil => simp
  | cons x xs ih =>
    rw [List.cons_append, occCount_cons]
    omega

/-- A decomposed occurrence really is counted. -/
theorem occCount_pos_of_decomp (pat a b : List Char) :
    1 ≤ occCount pat (a ++ (pat ++ b)) := by
  have h1 : 1 ≤ occCount pat (pat ++ b) := by
    cases hp : pat ++ b with
    | nil =>
      have hpe : pat = [] := by cases pat <;> simp_all
      rw [occCount_nil, hpe]
      simp [isPrefixList]
    | cons c t =>
      rw [occCount_cons, ← hp, if_pos (isPrefixList_append pat b)]
      omega
  exact Nat.le_trans h1 (occCount_le_append pat a (pat ++ b))

theorem replaceAllAux_of_occCount_zero (pat rep : List Char) :
    ∀ (f : Nat) (s : List Char), s.length < f → occCount pat s = 0 →
      replaceAllAux pat rep f s = s := by
  intro f
  induction f with
  | zero => intro s hf; omega
  | succ f ih =>
    intro s hf h
    cases s with
    | nil =>
      rw [occCount_nil] at h
      rw [replaceAllAux]
      by_cases hp : isPrefixList pat ([] : List Char) = true
      · rw [if_pos hp] at h; omega
      · simp [hp]
    | cons c t =>
      rw [occCount_cons] at h
      cases hnp : isPrefixList pat (c :: t) with
      | true => rw [if_pos hnp] at h; omega
      | false =>
        rw [hnp] at h
        simp only [Bool.false_eq_true, if_false, Nat.zero_add] at h
        have hpat : pat ≠ [] := by
          intro he
          rw [he] at hnp
          simp [isPrefixList] at hnp
        rw [replaceAllAux]
        rw [if_neg (by simp [hnp]), if_neg hpat]
        rw [ih t (by simp at hf; omega) h]

/-- When the pattern does not occur at all, replacement is the identity. -/
theorem replaceAll_of_occCount_zero (pat rep : List Char) (s : List Char)
    (h : occCount pat s = 0) : replaceAll pat rep s = s :=
  replaceAllAux_of_occCount_zero pat rep (s.length + 1) s (Nat.lt_succ_self _) h

theorem replaceAllAux_single (pat rep : List Char) (hp : pat ≠ []) :
    ∀ (a : List Char) (f : Nat) (b : List Char),
      (a ++ (pat ++ b)).length < f →
      occCount pat (a ++ (pat ++ b)) = 1 →
      replaceAllAux pat rep f (a ++ (pat ++ b)) = a ++ rep ++ b := by
  intro a
  induction a with
  | nil =>
    intro f b hf h
    simp only [List.nil_append] at hf h ⊢
    cases f with
    | zero => omega
    | succ f =>
      obtain ⟨pc, pt, hpc⟩ : ∃ pc pt, pat = pc :: pt := by
        cases pat with
        | nil => exact absurd rfl hp
        | cons pc pt => exact ⟨pc, pt, rfl⟩
      have hs : pat ++ b = pc :: (pt ++ b) := by rw [hpc]; rfl
      have hocc : occCount pat b = 0 := by
        rw [hs, occCount_cons, ← hs, if_pos (isPrefixList_append pat b)] at h
        have h2 := occCount_le_append pat pt b
        omega
      have hfb : b.length < f := by
        rw [hs] at hf
        simp only [List.length_cons, List.length_append] at hf
        omega
      rw [hs, replaceAllAux]
      rw [if_pos ⟨hp, by rw [← hs]; exact isPrefixList_append pat b⟩]
      have hdrop : (pt ++ b).drop (pat.length - 1) = b := by
        have hlen : pat.length - 1 = pt.length := by rw [hpc]; simp
        rw [hlen, List.drop_left]
      rw [hdrop]
      rw [replaceAllAux_of_occCount_zero pat rep f b hfb hocc]
  | cons x a' ih =>
    intro f b hf h
    cases f with
    | zero => simp at hf
    | succ f =>
      have hs : (x :: a') ++ (pat ++ b) = x :: (a' ++ (pat ++ b)) := by simp
      rw [hs] at h ⊢
      cases hnp : isPrefixList pat (x :: (a' ++ (pat ++ b))) with
      | true =>
        rw [occCount_cons, if_pos hnp] at h
        have := occCount_pos_of_decomp pat a' b
        omega
      | false =>
        rw [occCount_cons, hnp] at h
        simp only [Bool.false_eq_true, if_false, Nat.zero_add] at h
        have hfb : (a' ++ (pat ++ b)).length < f := by
          rw [hs] at hf
          simp only [List.length_cons] at hf
          omega
        rw [replaceAllAux]
        rw [if_neg (by simp [hnp]), if_neg hp]
        rw [ih f b hfb h]
        simp

/-- When the pattern occurs exactly once, replacement rewrites exactly that
occurrence, leaving the surrounding text untouched. -/
theorem replaceAll_single (pat rep : List Char) (hp : pat ≠ [])
    (a b : List Char) (h : occCount pat (a ++ (pat ++ b)) = 1) :
    replaceAll pat rep (a ++ (pat ++ b)) = a ++ rep ++ b :=
  replaceAllAux_single pat rep hp a ((a ++ (pat ++ b)).length + 1) b
    (Nat.lt_succ_self _) h

/-! ### Helper lemmas about the cache decision and the probe -/

theorem shouldCopyMetallib_iff (destExists : Bool) (dm sm : Option MetaData) :
    shouldCopyMetallib destExists dm sm = true ↔
      (destExists = false ∨
        ∃ dstT srcT, dm = some ⟨some dstT⟩ ∧ sm = some ⟨some srcT⟩ ∧ dstT < srcT) := by
  cases destExists with
  | false => simp [shouldCopyMetallib]
  | true =>
    cases dm with
    | none => simp [shouldCopyMetallib]
    | some d =>
      cases sm with
      | none => simp [shouldCopyMetallib]
      | some s =>
        obtain ⟨dmod⟩ := d
        obtain ⟨smod⟩ := s
        cases dmod with
        | none => cases smod <;> simp [shouldCopyMetallib]
        | some dstT =>
          cases smod with
          | none => simp [shouldCopyMetallib]
          | some srcT =>
            simp only [shouldCopyMetallib, if_pos rfl]
            constructor
            · intro h
              exact Or.inr ⟨dstT, srcT, rfl, rfl, by simpa using h⟩
            · rintro (h | ⟨dT, sT, hd, hs, hlt⟩)
              · exact absurd h (by simp)
              · injection hd with hd'
                injection hs with hs'
                injection hd' with hd''
                injection hs' with hs''
                injection hd'' with hd3
                injection hs'' with hs3
                subst hd3
                subst hs3
                simpa using hlt

theorem metallibCacheStep_of_shouldCopy_true (dstD h : String) (de : Bool)
    (dm sm : Option MetaData) (cr : Except String Nat)
    (hsc : shouldCopyMetallib de dm sm = true) :
    metallibCacheStep dstD true (some h) de dm sm cr =
      CacheEffect.mkCacheDir (h ++ "/.cache/pmetal/lib") ::
      CacheEffect.copyBundle (dstD ++ "/build/lib/mlx.metallib")
        (h ++ "/.cache/pmetal/lib" ++ "/mlx.metallib") ::
      (match cr with
       | Except.ok _ =>
          [CacheEffect.warn ("Cached mlx.metallib to " ++ (h ++ "/.cache/pmetal/lib" ++ "/mlx.metallib"))]
       | Except.error e => [CacheEffect.warn ("Failed to cache mlx.metallib: " ++ e)]) := by
  simp [metallibCacheStep, hsc]

theorem metallibCacheStep_of_shouldCopy_false (dstD h : String) (de : Bool)
    (dm sm : Option MetaData) (cr : Except String Nat)
    (hsc : shouldCopyMetallib de dm sm = false) :
    metallibCacheStep dstD true (some h) de dm sm cr = [] := by
  simp [metallibCacheStep, hsc]

theorem string_trim_empty : "".trim = "" := by
  rw [String.trim, Substring.trim]
  rw [Substring.takeWhileAux, Substring.takeRightWhileAux]
  rfl

theorem firstDarwinHit_none (ex : String → Bool) (base : String) :
    ∀ entries : List String,
    (∀ n ∈ entries,
      ex (base ++ "/" ++ n ++ "/lib/darwin" ++ "/libclang_rt.osx.a") = false) →
    firstDarwinHit ex base entries = none := by
  intro entries
  induction entries with
  | nil => intro _; rfl
  | cons n rest ih =>
    intro hex
    rw [firstDarwinHit]
    rw [hex n (List.mem_cons_self n rest), if_neg (by simp)]
    exact ih (fun m hm => hex m (List.mem_cons_of_mem n hm))

/-! ### Claim theorems: C1, C2, C4, C6, C8, C9, C10 -/

/-- Claim C1: when the kernel bundle exists in the build output and the home
directory resolves, the bundle is copied to the fixed cache path iff either
no cached entry exists, or both modification timestamps are readable and the
fresh artifact's timestamp is strictly later; consequently an existing entry
is never overwritten by an artifact whose timestamp is older or equal. -/
theorem C1_cache_freshness (dstD h : String) (destExists : Bool)
    (dm sm : Option MetaData) (cr : Except String Nat) :
    ((∃ s d, CacheEffect.copyBundle s d ∈
        metallibCacheStep dstD true (some h) destExists dm sm cr) ↔
      (destExists = false ∨
        ∃ dstT srcT, dm = some ⟨some dstT⟩ ∧ sm = some ⟨some srcT⟩ ∧ dstT < srcT)) ∧
    (∀ dstT srcT, destExists = true → dm = some ⟨some dstT⟩ → sm = some ⟨some srcT⟩ →
      srcT ≤ dstT → ∀ s d, CacheEffect.copyBundle s d ∉
        metallibCacheStep dstD true (some h) destExists dm sm cr) := by
  constructor
  · constructor
    · rintro ⟨s, d, hmem⟩
      cases hsc : shouldCopyMetallib destExists dm sm with
      | true => exact (shouldCopyMetallib_iff destExists dm sm).1 hsc
      | false =>
        rw [metallibCacheStep_of_shouldCopy_false dstD h destExists dm sm cr hsc] at hmem
        exact absurd hmem (by simp)
    · intro hrhs
      have hsc := (shouldCopyMetallib_iff destExists dm sm).2 hrhs
      refine ⟨dstD ++ "/build/lib/mlx.metallib",
        h ++ "/.cache/pmetal/lib" ++ "/mlx.metallib", ?_⟩
      rw [metallibCacheStep_of_shouldCopy_true dstD h destExists dm sm cr hsc]
      simp
  · intro dstT srcT hde hdm hsm hle s d hmem
    have hsc : shouldCopyMetallib destExists dm sm = false := by
      cases hx : shouldCopyMetallib destExists dm sm with
      | false => rfl
      | true =>
        rcases (shouldCopyMetallib_iff destExists dm sm).1 hx with hfalse | ⟨dT, sT, hd, hs, hlt⟩
        · rw [hde] at hfalse; exact absurd hfalse (by simp)
        · rw [hdm] at hd
          rw [hsm] at hs
          injection hd with hd'
          injection hs with hs'
          injection hd' with hd''
          injection hs' with hs''
          injection hd'' with hd3
          injection hs'' with hs3
          omega
    rw [metallibCacheStep_of_shouldCopy_false dstD h destExists dm sm cr hsc] at hmem
    exact absurd hmem (by simp)

/-- Claim C1 witness: with no cached entry, the copy is performed. -/
theorem C1_cache_freshness_witness :
    ∃ s d, CacheEffect.copyBundle s d ∈
      metallibCacheStep "out" true (some "home") false none none (Except.ok 0) :=
  (C1_cache_freshness "out" "home" false none none (Except.ok 0)).1.mpr (Or.inl rfl)

/-- Claim C2 counterexample: on a descriptor in which the version-tag marker
does not occur, the Patch Injector inserts nothing at all, so the patched
descriptor does not contain exactly one patch-application directive. -/
theorem C2_counterexample :
    injectPatchDirective ("project(mlx)".toList) = "project(mlx)".toList ∧
    occCount patchDirectiveToken (injectPatchDirective ("project(mlx)".toList)) = 0 := by
  constructor
  · rfl
  · rfl

/-- Claim C2 (amended): the Patch Injector inserts one directive per marker
occurrence: a descriptor without the marker is left byte-identical, and a
descriptor in which the marker occurs exactly once is rewritten to the same
text with the patch-application directive inserted immediately after the
version tag. -/
theorem C2_patch_injection (c : List Char) :
    (occCount gitTagMarker c = 0 → injectPatchDirective c = c) ∧
    (∀ a b, c = a ++ (gitTagMarker ++ b) → occCount gitTagMarker c = 1 →
      injectPatchDirective c = a ++ gitTagReplacement ++ b) := by
  constructor
  · exact replaceAll_of_occCount_zero _ _ c
  · intro a b hc hocc
    subst hc
    exact replaceAll_single _ _ (by decide) a b hocc

/-- Claim C2 witness: a descriptor containing the marker exactly once. -/
theorem C2_patch_injection_witness :
    injectPatchDirective ("AB ".toList ++ (gitTagMarker ++ " CD".toList)) =
      "AB ".toList ++ gitTagReplacement ++ " CD".toList :=
  (C2_patch_injection _).2 ("AB ".toList) (" CD".toList) rfl (by decide)

/-- Claim C4 counterexample: with both backends disabled but the runtime-symbol
probe succeeding, conditional fallback directives are still emitted, so the
emission is not exactly the four unconditional directives. -/
theorem C4_counterexample :
    Directive.linkSearch "p" ∈ linkDirectives "d" false false (some "p") ∧
    linkDirectives "d" false false (some "p") ≠
      [Directive.linkSearchNative ("d" ++ "/build/lib"), Directive.linkStaticLib "mlx",
       Directive.linkStaticLib "mlxc", Directive.linkLib "c++",
       Directive.linkDylib "objc", Directive.linkFramework "Foundation"] := by
  constructor
  · simp [linkDirectives]
  · intro hcontra
    have : (linkDirectives "d" false false (some "p")).length = 6 := by
      rw [hcontra]
      rfl
    simp [linkDirectives] at this

/-- Claim C4 (amended): with Backend-A (metal) and Backend-B (accelerate)
both disabled and the runtime-symbol fallback probe returning nothing, Link
Wiring emits exactly the four unconditional directive groups — the search
path, the two static libraries, the C++ runtime, and the Objective-C runtime
plus Foundation framework — in that order, and zero conditional ones. -/
theorem C4_link_wiring (d : String) :
    linkDirectives d false false none =
      [Directive.linkSearchNative (d ++ "/build/lib"), Directive.linkStaticLib "mlx",
       Directive.linkStaticLib "mlxc", Directive.linkLib "c++",
       Directive.linkDylib "objc", Directive.linkFramework "Foundation"] := rfl

/-- Claim C6 counterexample: a missing home directory, and likewise
unreadable modification-time metadata, silently skip the caching step with no
diagnostic warning at all, contradicting the claim that every failure
produces a warning. -/
theorem C6_counterexample :
    metallibCacheStep "o" true none true (some ⟨none⟩) (some ⟨none⟩) (Except.ok 0) = [] ∧
    metallibCacheStep "o" true (some "h") true (some ⟨none⟩) (some ⟨none⟩) (Except.ok 0) = [] := by
  constructor
  · rfl
  · rfl

/-- Claim C6 (amended): every failure in the caching step is non-fatal (the
step always reduces to a plain effect list); a copy I/O error degrades to a
diagnostic warning, while a missing home directory or unreadable metadata
silently skip the caching with no warning. -/
theorem C6_cache_errors (dstD : String) (de : Bool) (dm sm : Option MetaData) :
    (∀ cr, metallibCacheStep dstD true none de dm sm cr = []) ∧
    (∀ h cr, shouldCopyMetallib de dm sm = false →
      metallibCacheStep dstD true (some h) de dm sm cr = []) ∧
    (∀ h cr, de = true → (dm = none ∨ dm = some ⟨none⟩ ∨ sm = none ∨ sm = some ⟨none⟩) →
      metallibCacheStep dstD true (some h) de dm sm cr = []) ∧
    (∀ h e, shouldCopyMetallib de dm sm = true →
      CacheEffect.warn ("Failed to cache mlx.metallib: " ++ e) ∈
        metallibCacheStep dstD true (some h) de dm sm (Except.error e)) := by
  refine ⟨fun cr => rfl, ?_, ?_, ?_⟩
  · intro h cr hsc
    exact metallibCacheStep_of_shouldCopy_false dstD h de dm sm cr hsc
  · intro h cr hde hbad
    have hsc : shouldCopyMetallib de dm sm = false := by
      subst hde
      rcases hbad with h1 | h1 | h1 | h1 <;> subst h1
      · simp [shouldCopyMetallib]
      · cases sm with
        | none => simp [shouldCopyMetallib]
        | some s => obtain ⟨smod⟩ := s; cases smod <;> simp [shouldCopyMetallib]
      · cases dm with
        | none => simp [shouldCopyMetallib]
        | some d => obtain ⟨dmod⟩ := d; cases dmod <;> simp [shouldCopyMetallib]
      · cases dm with
        | none => simp [shouldCopyMetallib]
        | some d => obtain ⟨dmod⟩ := d; cases dmod <;> simp [shouldCopyMetallib]
    exact metallibCacheStep_of_shouldCopy_false dstD h de dm sm cr hsc
  · intro h e hsc
    rw [metallibCacheStep_of_shouldCopy_true dstD h de dm sm (Except.error e) hsc]
    simp

/-- Claim C6 witness: a failing copy with a fresh cache entry produces the
diagnostic warning. -/
theorem C6_cache_errors_witness :
    CacheEffect.warn ("Failed to cache mlx.metallib: " ++ "denied") ∈
      metallibCacheStep "o" true (some "h") false none none (Except.error "denied") :=
  (C6_cache_errors "o" false none none).2.2.2 "h" "denied" rfl

/-- Claim C8: every failure branch of the runtime-symbol probe — either
command failing to launch or exiting unsuccessfully, an unlistable toolchain
directory, or the runtime archive being absent at every probed
`base/version/lib/darwin/libclang_rt.osx.a` path however populated the rest
of the filesystem is — folds into `none`; the fallback search-path and link
directives are emitted iff the probe returns a path; and absence produces no
diagnostic. -/
theorem C8_probe_fallback (e : ProbeEnv) :
    (e.xcrunSdkPlatformPath = none → findClangRtPath e = none) ∧
    (∀ o, e.xcrunSdkPlatformPath = some o → o.success = false → findClangRtPath e = none) ∧
    (e.xcodeSelectPrintPath = none → findClangRtPath e = none) ∧
    (∀ o, e.xcodeSelectPrintPath = some o → o.success = false → findClangRtPath e = none) ∧
    (e.clangVersionDirs = none → findClangRtPath e = none) ∧
    (∀ o2 entries, e.xcodeSelectPrintPath = some o2 → e.clangVersionDirs = some entries →
      (∀ n ∈ entries,
        e.fileExists (o2.stdout.trim ++ "/Toolchains/XcodeDefault.xctoolchain/usr/lib/clang"
          ++ "/" ++ n ++ "/lib/darwin" ++ "/libclang_rt.osx.a") = false) →
      findClangRtPath e = none) ∧
    (∀ d m a p, findClangRtPath e = some p →
      Directive.linkSearch p ∈ linkDirectives d m a (findClangRtPath e) ∧
      Directive.linkStaticLib "clang_rt.osx" ∈ linkDirectives d m a (findClangRtPath e)) ∧
    (findClangRtPath e = none → ∀ d m a,
      (∀ p, Directive.linkSearch p ∉ linkDirectives d m a (findClangRtPath e)) ∧
      Directive.linkStaticLib "clang_rt.osx" ∉ linkDirectives d m a (findClangRtPath e) ∧
      (∀ w, Directive.warning w ∉ linkDirectives d m a (findClangRtPath e))) := by
  obtain ⟨x1, x2, cd, fe⟩ := e
  refine ⟨?_, ?_, ?_, ?_, ?_, ?_, ?_, ?_⟩
  · intro h1; simp only at h1; simp [findClangRtPath, h1]
  · intro o h1 h2; simp only at h1 h2; subst h1; simp [findClangRtPath, h2]
  · intro h1
    simp only at h1
    subst h1
    cases x1 with
    | none => rfl
    | some o1 => simp [findClangRtPath]
  · intro o h1 h2
    simp only at h1 h2
    subst h1
    cases x1 with
    | none => rfl
    | some o1 =>
      simp only [findClangRtPath]
      cases hs : o1.success <;> simp [hs, h2]
  · intro h1
    simp only at h1
    subst h1
    cases x1 with
    | none => rfl
    | some o1 =>
      cases x2 with
      | none => simp [findClangRtPath]
      | some o2 =>
        simp only [findClangRtPath]
        cases hs : o1.success <;> cases hs2 : o2.success <;> simp [hs, hs2]
  · intro o2 entries h2 hcd hfe
    simp only at h2 hcd hfe
    subst h2
    subst hcd
    cases x1 with
    | none => rfl
    | some o1 =>
      simp only [findClangRtPath]
      cases hs : o1.success <;> cases hs2 : o2.success <;>
        simp [hs, hs2, firstDarwinHit_none fe _ entries hfe]
  · intro d m a p hp
    rw [hp]
    constructor <;> simp [linkDirectives]
  · intro hp d m a
    rw [hp]
    refine ⟨?_, ?_, ?_⟩
    · intro p
      cases m <;> cases a <;> simp [linkDirectives]
    · cases m <;> cases a <;> simp [linkDirectives]
    · intro w
      cases m <;> cases a <;> simp [linkDirectives]

/-- Claim C8 witness: both commands succeed and the toolchain directory is
populated (a version subdirectory containing a README), but the runtime
archive itself is absent, so the probe yields no fallback path. -/
theorem C8_probe_fallback_witness :
    findClangRtPath
      ⟨some ⟨true, ""⟩, some ⟨true, ""⟩, some ["17"],
        fun s => s == "/Toolchains/XcodeDefault.xctoolchain/usr/lib/clang/17/README"⟩
      = none :=
  (C8_probe_fallback
      ⟨some ⟨true, ""⟩, some ⟨true, ""⟩, some ["17"],
        fun s => s == "/Toolchains/XcodeDefault.xctoolchain/usr/lib/clang/17/README"⟩
    ).2.2.2.2.2.1 ⟨true, ""⟩ ["17"] rfl rfl
    (by simp only [string_trim_empty]; decide)

/-- Claim C9: the resolved deployment target equals the environment override
verbatim when the variable is set, and the documented default `14.0` when it
is unset. -/
theorem C9_deployment_target :
    (∀ v, resolveDeploymentTarget (some v) = v) ∧
    resolveDeploymentTarget none = "14.0" :=
  ⟨fun _ => rfl, rfl⟩

/-- Claim C10: on a staged build descriptor in which the version-tag marker
does not occur, the Patch Injector's rewrite is the identity — the descriptor
is written back byte-identical and no patch-application directive is inserted;
the rewrite is total, so the marker's absence causes no error or diagnostic. -/
theorem C10_marker_absent (c : List Char) (h : occCount gitTagMarker c = 0) :
    injectPatchDirective c = c ∧
    occCount patchDirectiveToken (injectPatchDirective c) =
      occCount patchDirectiveToken c := by
  have hid := replaceAll_of_occCount_zero gitTagMarker gitTagReplacement c h
  exact ⟨hid, by simp only [injectPatchDirective]; rw [hid]⟩

/-- Claim C10 witness: a concrete descriptor without the marker. -/
theorem C10_marker_absent_witness :
    injectPatchDirective ("cmake_minimum_required(VERSION 3.5)".toList) =
      "cmake_minimum_required(VERSION 3.5)".toList :=
  (C10_marker_absent ("cmake_minimum_required(VERSION 3.5)".toList) (by decide)).1

/-! ### Basic lookup lemmas -/

theorem lookupFS_append (xs ys : FS) (p : Path) :
    lookupFS (xs ++ ys) p =
      match lookupFS xs p with
      | some v => some v
      | none => lookupFS ys p := by
  induction xs with
  | nil => rfl
  | cons e rest ih =>
    obtain ⟨q, n⟩ := e
    by_cases hq : q = p
    · simp [lookupFS, hq]
    · simp only [List.cons_append, lookupFS, if_neg hq]
      exact ih

theorem lookupFS_eq_none (xs : FS) (p : Path) (h : ∀ e ∈ xs, e.1 ≠ p) :
    lookupFS xs p = none := by
  induction xs with
  | nil => rfl
  | cons e rest ih =>
    obtain ⟨q, n⟩ := e
    simp only [lookupFS]
    rw [if_neg (h (q, n) (by simp))]
    exact ih (fun e he => h e (List.mem_cons_of_mem _ he))

theorem lookupFS_append_left_none {xs ys : FS} {p : Path}
    (h : lookupFS xs p = none) : lookupFS (xs ++ ys) p = lookupFS ys p := by
  rw [lookupFS_append, h]

theorem lookupFS_isSome_append (xs ys : FS) (p : Path)
    (h : (lookupFS ys p).isSome = true) :
    (lookupFS (xs ++ ys) p).isSome = true := by
  rw [lookupFS_append]
  cases hx : lookupFS xs p with
  | none => exact h
  | some v => rfl

theorem lookupFS_cons_isSome (e : Path × Node) (out : FS) (p : Path)
    (h : (lookupFS out p).isSome = true) :
    (lookupFS (e :: out) p).isSome = true := by
  obtain ⟨q, n⟩ := e
  simp only [lookupFS]
  by_cases hq : q = p
  · rw [if_pos hq]; rfl
  · rw [if_neg hq]; exact h

theorem lookupFS_mem {fs : FS} {p : Path} {v : Node}
    (h : lookupFS fs p = some v) : (p, v) ∈ fs := by
  induction fs with
  | nil => exact absurd h (by simp [lookupFS])
  | cons e rest ih =>
    obtain ⟨q, n⟩ := e
    by_cases hq : q = p
    · subst hq
      simp only [lookupFS, if_pos rfl] at h
      injection h with h
      subst h
      exact List.mem_cons_self _ _
    · simp only [lookupFS, if_neg hq] at h
      exact List.mem_cons_of_mem _ (ih h)

/-- A filter keyed on paths preserves lookups at keys satisfying the
predicate. -/
theorem lookupFS_filter_pos (fs : FS) (pred : Path → Bool) (p : Path)
    (hpred : pred p = true) :
    lookupFS (fs.filter (fun e => pred e.1)) p = lookupFS fs p := by
  induction fs with
  | nil => rfl
  | cons e rest ih =>
    obtain ⟨q, n⟩ := e
    by_cases hq : q = p
    · subst hq
      rw [List.filter_cons, if_pos (by simpa using hpred)]
      simp [lookupFS]
    · rw [List.filter_cons]
      by_cases hkeep : pred q = true
      · rw [if_pos (by simpa using hkeep)]
        simp only [lookupFS, if_neg hq]
        exact ih
      · rw [if_neg (by simpa using hkeep)]
        simp only [lookupFS, if_neg hq]
        exact ih

/-! ### Directory-listing lemmas -/

theorem childName_eq_some {p q : Path} {n : String} :
    childName p q = some n ↔ q = p ++ [n] := by
  unfold childName
  constructor
  · intro h
    by_cases hpre : isPrefixList p q = true
    · rw [if_pos hpre] at h
      obtain ⟨r, rfl⟩ := (isPrefixList_iff p q).1 hpre
      rw [show (p ++ r).drop p.length = r from List.drop_left p r] at h
      cases r with
      | nil => exact absurd h (by simp)
      | cons x xs =>
        cases xs with
        | nil =>
          injection h with h
          subst h
          rfl
        | cons y ys => exact absurd h (by simp)
    · rw [if_neg hpre] at h
      exact absurd h (by simp)
  · rintro rfl
    rw [if_pos (isPrefixList_append p [n])]
    rw [show (p ++ [n]).drop p.length = [n] from List.drop_left p [n]]

theorem mem_childNames {fs : FS} {p : Path} {n : String}
    (h : (lookupFS fs (p ++ [n])).isSome = true) : n ∈ childNames fs p := by
  obtain ⟨v, hv⟩ := Option.isSome_iff_exists.1 h
  exact List.mem_filterMap.2 ⟨(p ++ [n], v), lookupFS_mem hv, childName_eq_some.2 rfl⟩

theorem childNames_nodup {fs : FS} (h : keysNodup fs) (p : Path) :
    (childNames fs p).Nodup := by
  unfold childNames
  have hmap : fs.filterMap (fun e => childName p e.1) =
      (fs.map Prod.fst).filterMap (childName p) := by
    rw [List.filterMap_map]
    rfl
  rw [hmap]
  apply List.Nodup.filterMap ?_ h
  intro a a' n hn hn'
  rw [Option.mem_def, childName_eq_some] at hn hn'
  rw [hn, hn']

/-! ### Prefix-list lemmas -/

theorem mem_prefixesOf {p q : Path} :
    q ∈ prefixesOf p ↔ q ≠ [] ∧ isPrefixList q p = true := by
  unfold prefixesOf
  rw [List.mem_map]
  constructor
  · rintro ⟨i, hi, rfl⟩
    rw [List.mem_range] at hi
    refine ⟨?_, isPrefixList_take _ _⟩
    intro he
    have hlen := congrArg List.length he
    rw [List.length_take] at hlen
    simp only [List.length_nil] at hlen
    rcases Nat.min_eq_zero_iff.1 hlen with h0 | h0 <;> omega
  · rintro ⟨hne, hpre⟩
    refine ⟨q.length - 1, ?_, ?_⟩
    · rw [List.mem_range]
      have h1 := length_le_of_isPrefixList hpre
      have h2 : 1 ≤ q.length := by
        cases q with
        | nil => exact absurd rfl hne
        | cons _ _ => simp
      omega
    · obtain ⟨r, rfl⟩ := (isPrefixList_iff q p).1 hpre
      have hq1 : q.length - 1 + 1 = q.length := by
        cases q with
        | nil => exact absurd rfl hne
        | cons _ _ => simp
      rw [hq1]
      exact List.take_left q r

theorem self_mem_prefixesOf {p : Path} (h : p ≠ []) : p ∈ prefixesOf p :=
  mem_prefixesOf.2 ⟨h, isPrefixList_refl p⟩

theorem mem_prefixesOf_snoc {d : Path} {m : String} {q : Path}
    (h : q ∈ prefixesOf (d ++ [m])) (hne : q ≠ d ++ [m]) : q ∈ prefixesOf d := by
  rw [mem_prefixesOf] at h ⊢
  obtain ⟨h1, h2⟩ := h
  refine ⟨h1, ?_⟩
  by_cases hl : q.length ≤ d.length
  · exact isPrefixList_of_snoc_short h2 hl
  · exfalso
    have hle := length_le_of_isPrefixList h2
    rw [List.length_append, List.length_singleton] at hle
    have := eq_of_isPrefixList_of_length h2
      (by rw [List.length_append, List.length_singleton]; omega)
    exact hne this

theorem comparable_of_comparable_snoc {k d : Path} {m : String}
    (h : isPrefixList (d ++ [m]) k = true ∨ isPrefixList k (d ++ [m]) = true) :
    isPrefixList d k = true ∨ isPrefixList k d = true := by
  rcases h with h | h
  · left
    exact isPrefixList_trans (isPrefixList_append d [m]) h
  · by_cases hl : k.length ≤ d.length
    · right
      exact isPrefixList_of_snoc_short h hl
    · left
      have hk := eq_of_isPrefixList_of_length h
        (by rw [List.length_append, List.length_singleton]; omega)
      rw [hk]
      exact isPrefixList_append d [m]

theorem ne_snoc_cons_of_comparable {dst : Path} {m n : String} {r' k : Path}
    (hc : isPrefixList (dst ++ [m]) k = true ∨ isPrefixList k (dst ++ [m]) = true)
    (hnm : m ≠ n) : k ≠ dst ++ n :: r' := by
  rintro rfl
  rcases hc with h | h
  · rw [show dst ++ [m] = dst ++ m :: ([] : Path) by simp] at h
    exact hnm (head_eq_of_isPrefixList_append h)
  · rw [show dst ++ [m] = dst ++ m :: ([] : Path) by simp] at h
    exact hnm (head_eq_of_isPrefixList_append h).symm

/-! ### `create_dir_all` lemmas -/

theorem createDirStep_eq (base acc : FS) (q : Path) :
    createDirStep base acc q =
      if (lookupFS acc q).isSome || (lookupFS base q).isSome then acc
      else (q, Node.dir) :: acc := rfl

theorem foldl_createDirStep_delta (base : FS) :
    ∀ (ps : List Path) (out : FS),
      ∃ Δ, ps.foldl (createDirStep base) out = Δ ++ out ∧
        ∀ e ∈ Δ, e.2 = Node.dir ∧ e.1 ∈ ps := by
  intro ps
  induction ps with
  | nil => intro out; exact ⟨[], rfl, by simp⟩
  | cons q rest ih =>
    intro out
    rw [List.foldl_cons, createDirStep_eq]
    by_cases hq : ((lookupFS out q).isSome || (lookupFS base q).isSome) = true
    · rw [if_pos hq]
      obtain ⟨Δ, hΔ, hprop⟩ := ih out
      exact ⟨Δ, hΔ, fun e he =>
        ⟨(hprop e he).1, List.mem_cons_of_mem _ (hprop e he).2⟩⟩
    · rw [if_neg hq]
      obtain ⟨Δ, hΔ, hprop⟩ := ih ((q, Node.dir) :: out)
      refine ⟨Δ ++ [(q, Node.dir)], by rw [hΔ]; simp, ?_⟩
      intro e he
      rcases List.mem_append.1 he with he1 | he1
      · exact ⟨(hprop e he1).1, List.mem_cons_of_mem _ (hprop e he1).2⟩
      · have he2 : e = (q, Node.dir) := by simpa using he1
        subst he2
        exact ⟨rfl, by simp⟩

theorem foldl_createDirStep_present (base : FS) :
    ∀ (ps : List Path) (out : FS) (q : Path), q ∈ ps →
      ((lookupFS (ps.foldl (createDirStep base) out) q).isSome = true ∨
        (lookupFS base q).isSome = true) := by
  intro ps
  induction ps with
  | nil =>
    intro out q h
    exact absurd h (by simp)
  | cons x rest ih =>
    intro out q hq
    rw [List.foldl_cons]
    rcases List.mem_cons.1 hq with rfl | hmem
    · by_cases hb : (lookupFS base q).isSome = true
      · right; exact hb
      · left
        have hstep : (lookupFS (createDirStep base out q) q).isSome = true := by
          rw [createDirStep_eq]
          by_cases h1 : ((lookupFS out q).isSome || (lookupFS base q).isSome) = true
          · rw [if_pos h1]
            rw [Bool.or_eq_true] at h1
            rcases h1 with h2 | h2
            · exact h2
            · exact absurd h2 hb
          · rw [if_neg h1]
            simp [lookupFS]
        obtain ⟨Δ, hΔ, _⟩ := foldl_createDirStep_delta base rest (createDirStep base out q)
        rw [hΔ]
        exact lookupFS_isSome_append _ _ _ hstep
    · exact ih (createDirStep base out x) q hmem

theorem foldl_createDirStep_sub (base : FS) (special : Path) :
    ∀ (ps : List Path) (out : FS),
      (∀ q ∈ ps, (lookupFS out q).isSome = true ∨
        (lookupFS base q).isSome = true ∨ q = special) →
      ∃ Δ, ps.foldl (createDirStep base) out = Δ ++ out ∧
        ∀ e ∈ Δ, e.1 = special ∧ e.2 = Node.dir := by
  intro ps
  induction ps with
  | nil => intro out _; exact ⟨[], rfl, by simp⟩
  | cons x rest ih =>
    intro out h
    rw [List.foldl_cons, createDirStep_eq]
    by_cases hpres : ((lookupFS out x).isSome || (lookupFS base x).isSome) = true
    · rw [if_pos hpres]
      exact ih out (fun q hq => h q (List.mem_cons_of_mem _ hq))
    · rw [if_neg hpres]
      have hx : x = special := by
        rcases h x (List.mem_cons_self _ _) with h1 | h1 | h1
        · exact absurd (by rw [h1]; simp) hpres
        · exact absurd (by rw [h1]; simp) hpres
        · exact h1
      have hside : ∀ q ∈ rest, (lookupFS ((x, Node.dir) :: out) q).isSome = true ∨
          (lookupFS base q).isSome = true ∨ q = special := by
        intro q hq
        rcases h q (List.mem_cons_of_mem _ hq) with h1 | h1 | h1
        · exact Or.inl (lookupFS_cons_isSome _ _ _ h1)
        · exact Or.inr (Or.inl h1)
        · exact Or.inr (Or.inr h1)
      obtain ⟨Δ, hΔ, hprop⟩ := ih ((x, Node.dir) :: out) hside
      refine ⟨Δ ++ [(x, Node.dir)], by rw [hΔ]; simp, ?_⟩
      intro e he
      rcases List.mem_append.1 he with he1 | he1
      · exact hprop e he1
      · have he2 : e = (x, Node.dir) := by simpa using he1
        subst he2
        exact ⟨hx, rfl⟩

theorem prefixesOf_eq_snoc (p : Path) (hne : p ≠ []) :
    prefixesOf p =
      (List.range (p.length - 1)).map (fun i => p.take (i + 1)) ++ [p] := by
  unfold prefixesOf
  have h1 : 1 ≤ p.length := by
    cases p with
    | nil => exact absurd rfl hne
    | cons _ _ => simp
  have h2 : p.length = (p.length - 1) + 1 := by omega
  rw [h2, List.range_succ, List.map_append]
  simp only [List.map_cons, List.map_nil]
  rw [show p.length - 1 + 1 = p.length by omega, List.take_length]

theorem createDirAllFS_lookup_self (base out : FS) (p : Path) (hne : p ≠ [])
    (hb : lookupFS base p = none) (ho : lookupFS out p = none) :
    lookupFS (createDirAllFS base out p) p = some Node.dir := by
  unfold createDirAllFS
  rw [prefixesOf_eq_snoc p hne, List.foldl_append]
  obtain ⟨Δ, hΔ, hprop⟩ := foldl_createDirStep_delta base
    ((List.range (p.length - 1)).map (fun i => p.take (i + 1))) out
  have hacc : lookupFS (((List.range (p.length - 1)).map
      (fun i => p.take (i + 1))).foldl (createDirStep base) out) p = none := by
    rw [hΔ, lookupFS_append]
    have hΔnone : lookupFS Δ p = none := by
      apply lookupFS_eq_none
      intro e he
      have hmem := (hprop e he).2
      rw [List.mem_map] at hmem
      obtain ⟨i, hi, hkey⟩ := hmem
      rw [List.mem_range] at hi
      intro hkp
      have hlen := congrArg List.length hkey
      rw [hkp, List.length_take] at hlen
      have : min (i + 1) p.length = i + 1 := by omega
      omega
    rw [hΔnone, ho]
  simp only [List.foldl_cons, List.foldl_nil]
  rw [createDirStep_eq, if_neg (by simp [hacc, hb])]
  simp [lookupFS]

theorem presentIn_mono {fs out : FS} (Δ : FS) {p : Path}
    (h : presentIn fs out p) : presentIn fs (Δ ++ out) p := by
  rcases h with h | h
  · exact Or.inl (lookupFS_isSome_append _ _ _ h)
  · exact Or.inr h

theorem presentIn_cons {fs out : FS} (e : Path × Node) {p : Path}
    (h : presentIn fs out p) : presentIn fs (e :: out) p := by
  rcases h with h | h
  · exact Or.inl (lookupFS_cons_isSome _ _ _ h)
  · exact Or.inr h

theorem copyDirDelta_zero (fs : FS) : copyDirDelta fs 0 := by
  intro src dst out out' hok
  exact absurd hok (by simp [copyDirFS])

theorem copyEntriesDelta_of (fs : FS) (f : Nat) (hD : copyDirDelta fs f) :
    copyEntriesDelta fs f := by
  intro q dst names
  induction names with
  | nil =>
    intro out out' hok
    simp only [copyEntriesFS] at hok
    injection hok with hok
    subst hok
    exact ⟨[], rfl, by simp, by simp, fun _ => by simp⟩
  | cons n rest ih =>
    intro out out' hok
    simp only [copyEntriesFS] at hok
    cases hlook : lookupFS fs (q ++ [n]) with
    | none =>
      rw [hlook] at hok
      exact absurd hok (by simp)
    | some node =>
      rw [hlook] at hok
      cases node with
      | dir =>
        cases hchild : copyDirFS fs f (q ++ [n]) (dst ++ [n]) out with
        | error e =>
          rw [hchild] at hok
          exact absurd hok (by simp)
        | ok out2 =>
          rw [hchild] at hok
          obtain ⟨Δ1, hΔ1, hns1, hcmp1, hcond1⟩ := hD _ _ _ _ hchild
          obtain ⟨Δ2, hΔ2, hns2, hcmp2, hcond2⟩ := ih out2 out' hok
          subst hΔ1
          refine ⟨Δ2 ++ Δ1, by rw [hΔ2]; simp, ?_, ?_, ?_⟩
          · intro e he
            rcases List.mem_append.1 he with he1 | he1
            · exact hns2 e he1
            · exact hns1 e he1
          · intro e he
            rcases List.mem_append.1 he with he1 | he1
            · obtain ⟨m, hm, hc⟩ := hcmp2 e he1
              exact ⟨m, List.mem_cons_of_mem _ hm, hc⟩
            · exact ⟨n, List.mem_cons_self _ _, hcmp1 e he1⟩
          · intro hpre e he
            rcases List.mem_append.1 he with he1 | he1
            · have hpre2 : ∀ p ∈ prefixesOf dst, presentIn fs (Δ1 ++ out) p :=
                fun p hp => presentIn_mono Δ1 (hpre p hp)
              obtain ⟨m, hm, hc⟩ := hcond2 hpre2 e he1
              exact ⟨m, List.mem_cons_of_mem _ hm, hc⟩
            · refine ⟨n, List.mem_cons_self _ _, ?_⟩
              apply hcond1 ?_ e he1
              intro p hp hpne
              exact hpre p (mem_prefixesOf_snoc hp hpne)
      | file c =>
        obtain ⟨Δ2, hΔ2, hns2, hcmp2, hcond2⟩ := ih _ out' hok
        refine ⟨Δ2 ++ [(dst ++ [n], Node.file c)], by rw [hΔ2]; simp, ?_, ?_, ?_⟩
        · intro e he
          rcases List.mem_append.1 he with he1 | he1
          · exact hns2 e he1
          · have he2 : e = (dst ++ [n], Node.file c) := by simpa using he1
            subst he2
            intro ab t h
            exact absurd h (by simp)
        · intro e he
          rcases List.mem_append.1 he with he1 | he1
          · obtain ⟨m, hm, hc⟩ := hcmp2 e he1
            exact ⟨m, List.mem_cons_of_mem _ hm, hc⟩
          · have he2 : e = (dst ++ [n], Node.file c) := by simpa using he1
            subst he2
            exact ⟨n, List.mem_cons_self _ _, Or.inl (isPrefixList_refl _)⟩
        · intro hpre e he
          rcases List.mem_append.1 he with he1 | he1
          · have hpre2 : ∀ p ∈ prefixesOf dst,
                presentIn fs ((dst ++ [n], Node.file c) :: out) p :=
              fun p hp => presentIn_cons _ (hpre p hp)
            obtain ⟨m, hm, hc⟩ := hcond2 hpre2 e he1
            exact ⟨m, List.mem_cons_of_mem _ hm, hc⟩
          · have he2 : e = (dst ++ [n], Node.file c) := by simpa using he1
            subst he2
            exact ⟨n, List.mem_cons_self _ _, isPrefixList_refl _⟩
      | symlink ab t =>
        simp only at hok
        cases hdir : isDirFS fs f (resolveTarget (q ++ [n]) ab t) with
        | true =>
          rw [hdir] at hok
          simp only [if_true] at hok
          cases hchild : copyDirFS fs f (resolveTarget (q ++ [n]) ab t)
              (dst ++ [n]) out with
          | error e =>
            rw [hchild] at hok
            exact absurd hok (by simp)
          | ok out2 =>
            rw [hchild] at hok
            obtain ⟨Δ1, hΔ1, hns1, hcmp1, hcond1⟩ := hD _ _ _ _ hchild
            obtain ⟨Δ2, hΔ2, hns2, hcmp2, hcond2⟩ := ih out2 out' hok
            subst hΔ1
            refine ⟨Δ2 ++ Δ1, by rw [hΔ2]; simp, ?_, ?_, ?_⟩
            · intro e he
              rcases List.mem_append.1 he with he1 | he1
              · exact hns2 e he1
              · exact hns1 e he1
            · intro e he
              rcases List.mem_append.1 he with he1 | he1
              · obtain ⟨m, hm, hc⟩ := hcmp2 e he1
                exact ⟨m, List.mem_cons_of_mem _ hm, hc⟩
              · exact ⟨n, List.mem_cons_self _ _, hcmp1 e he1⟩
            · intro hpre e he
              rcases List.mem_append.1 he with he1 | he1
              · have hpre2 : ∀ p ∈ prefixesOf dst, presentIn fs (Δ1 ++ out) p :=
                  fun p hp => presentIn_mono Δ1 (hpre p hp)
                obtain ⟨m, hm, hc⟩ := hcond2 hpre2 e he1
                exact ⟨m, List.mem_cons_of_mem _ hm, hc⟩
              · refine ⟨n, List.mem_cons_self _ _, ?_⟩
                apply hcond1 ?_ e he1
                intro p hp hpne
                exact hpre p (mem_prefixesOf_snoc hp hpne)
        | false =>
          rw [hdir] at hok
          simp only [Bool.false_eq_true, if_false] at hok
          cases hread : readFileFS fs f (resolveTarget (q ++ [n]) ab t) with
          | none =>
            rw [hread] at hok
            exact absurd hok (by simp)
          | some c =>
            rw [hread] at hok
            obtain ⟨Δ2, hΔ2, hns2, hcmp2, hcond2⟩ := ih _ out' hok
            refine ⟨Δ2 ++ [(dst ++ [n], Node.file c)], by rw [hΔ2]; simp,
              ?_, ?_, ?_⟩
            · intro e he
              rcases List.mem_append.1 he with he1 | he1
              · exact hns2 e he1
              · have he2 : e = (dst ++ [n], Node.file c) := by simpa using he1
                subst he2
                intro ab' t' h
                exact absurd h (by simp)
            · intro e he
              rcases List.mem_append.1 he with he1 | he1
              · obtain ⟨m, hm, hc⟩ := hcmp2 e he1
                exact ⟨m, List.mem_cons_of_mem _ hm, hc⟩
              · have he2 : e = (dst ++ [n], Node.file c) := by simpa using he1
                subst he2
                exact ⟨n, List.mem_cons_self _ _, Or.inl (isPrefixList_refl _)⟩
            · intro hpre e he
              rcases List.mem_append.1 he with he1 | he1
              · have hpre2 : ∀ p ∈ prefixesOf dst,
                    presentIn fs ((dst ++ [n], Node.file c) :: out) p :=
                  fun p hp => presentIn_cons _ (hpre p hp)
                obtain ⟨m, hm, hc⟩ := hcond2 hpre2 e he1
                exact ⟨m, List.mem_cons_of_mem _ hm, hc⟩
              · have he2 : e = (dst ++ [n], Node.file c) := by simpa using he1
                subst he2
                exact ⟨n, List.mem_cons_self _ _, isPrefixList_refl _⟩

theorem copyDirDelta_succ (fs : FS) (f : Nat) (hE : copyEntriesDelta fs f) :
    copyDirDelta fs (Nat.succ f) := by
  intro src dst out out' hok
  simp only [copyDirFS] at hok
  cases hstat : statPath fs f src with
  | none =>
    rw [hstat] at hok
    exact absurd hok (by simp)
  | some q =>
    rw [hstat] at hok
    dsimp only at hok
    by_cases hdir : lookupFS fs q = some Node.dir
    · rw [if_pos hdir] at hok
      obtain ⟨Δc, hΔc, hpc⟩ := foldl_createDirStep_delta fs (prefixesOf dst) out
      have hcda : createDirAllFS fs out dst = Δc ++ out := hΔc
      rw [hcda] at hok
      obtain ⟨ΔE, hΔE, hnsE, hcmpE, hcondE⟩ := hE q dst (childNames fs q) _ out' hok
      refine ⟨ΔE ++ Δc, by rw [hΔE]; simp, ?_, ?_, ?_⟩
      · intro e he
        rcases List.mem_append.1 he with he1 | he1
        · exact hnsE e he1
        · intro ab t h
          have := (hpc e he1).1
          rw [h] at this
          exact absurd this (by simp)
      · intro e he
        rcases List.mem_append.1 he with he1 | he1
        · obtain ⟨m, _, hc⟩ := hcmpE e he1
          exact comparable_of_comparable_snoc hc
        · exact Or.inr (mem_prefixesOf.1 (hpc e he1).2).2
      · intro hstrict e he
        have hpreAll : ∀ p ∈ prefixesOf dst, presentIn fs (Δc ++ out) p := by
          intro p hp
          have := foldl_createDirStep_present fs (prefixesOf dst) out p hp
          rw [hΔc] at this
          rcases this with h1 | h1
          · exact Or.inl h1
          · exact Or.inr h1
        rcases List.mem_append.1 he with he1 | he1
        · obtain ⟨m, _, hc⟩ := hcondE hpreAll e he1
          exact isPrefixList_trans (isPrefixList_append dst [m]) hc
        · -- under `hstrict` the create-dir-all writes are only `dst` itself
          have hsub : ∀ p ∈ prefixesOf dst,
              (lookupFS out p).isSome = true ∨ (lookupFS fs p).isSome = true ∨
                p = dst := by
            intro p hp
            by_cases hpd : p = dst
            · exact Or.inr (Or.inr hpd)
            · rcases hstrict p hp hpd with h1 | h1
              · exact Or.inl h1
              · exact Or.inr (Or.inl h1)
          obtain ⟨Δc', hΔc', hpc'⟩ :=
            foldl_createDirStep_sub fs dst (prefixesOf dst) out hsub
          have hΔeq : Δc = Δc' :=
            List.append_cancel_right (hΔc.symm.trans hΔc')
          rw [hΔeq] at he1
          rw [(hpc' e he1).1]
          exact isPrefixList_refl dst
    · rw [if_neg hdir] at hok
      exact absurd hok (by simp)

theorem copyDelta_all (fs : FS) :
    ∀ f, copyDirDelta fs f ∧ copyEntriesDelta fs f := by
  intro f
  induction f with
  | zero =>
    exact ⟨copyDirDelta_zero fs, copyEntriesDelta_of fs 0 (copyDirDelta_zero fs)⟩
  | succ f ih =>
    have hD := copyDirDelta_succ fs f ih.2
    exact ⟨hD, copyEntriesDelta_of fs (Nat.succ f) hD⟩

/-! ### Placement lemmas: what the copy writes where -/

theorem lookupFS_append_skip {Δ out : FS} {p : Path}
    (h : ∀ e ∈ Δ, e.1 ≠ p) : lookupFS (Δ ++ out) p = lookupFS out p := by
  rw [lookupFS_append, lookupFS_eq_none Δ p h]

/-- A completed sibling batch that does not contain `n` never touches
anything at or below `dst ++ [n]`. -/
theorem copyEntriesFS_skips (fs : FS) (f : Nat) (q dst : Path)
    (rest : List String) (out out' : FS) (n : String) (r' : Path)
    (hok : copyEntriesFS fs (fun s d o => copyDirFS fs f s d o) f q dst rest out =
      Except.ok out')
    (hnot : n ∉ rest) :
    lookupFS out' (dst ++ n :: r') = lookupFS out (dst ++ n :: r') := by
  obtain ⟨Δ, hΔ, _, hcmp, _⟩ := (copyDelta_all fs f).2 q dst rest out out' hok
  rw [hΔ]
  apply lookupFS_append_skip
  intro e he
  obtain ⟨m, hm, hc⟩ := hcmp e he
  exact ne_snoc_cons_of_comparable hc (fun heq => hnot (heq ▸ hm))

/-- A successful directory copy leaves a real directory node at a fresh
destination root. -/
theorem copyDirFS_creates (fs : FS) (f : Nat) (src dst : Path) (out out' : FS)
    (hok : copyDirFS fs f src dst out = Except.ok out') (hne : dst ≠ [])
    (hfs : lookupFS fs dst = none) (hout : lookupFS out dst = none) :
    lookupFS out' dst = some Node.dir := by
  cases f with
  | zero => exact absurd hok (by simp [copyDirFS])
  | succ f2 =>
    simp only [copyDirFS] at hok
    cases hstat : statPath fs f2 src with
    | none =>
      rw [hstat] at hok
      exact absurd hok (by simp)
    | some q =>
      rw [hstat] at hok
      dsimp only at hok
      by_cases hdir : lookupFS fs q = some Node.dir
      · rw [if_pos hdir] at hok
        have hcda : lookupFS (createDirAllFS fs out dst) dst = some Node.dir :=
          createDirAllFS_lookup_self fs out dst hne hfs hout
        obtain ⟨ΔE, hΔE, _, _, hcondE⟩ :=
          (copyDelta_all fs f2).2 q dst (childNames fs q) _ out' hok
        have hpreAll : ∀ p ∈ prefixesOf dst,
            presentIn fs (createDirAllFS fs out dst) p := by
          intro p hp
          exact foldl_createDirStep_present fs (prefixesOf dst) out p hp
        rw [hΔE]
        rw [lookupFS_append_skip ?_]
        · exact hcda
        · intro e he
          obtain ⟨m, _, hc⟩ := hcondE hpreAll e he
          intro hkey
          have hlen := length_le_of_isPrefixList hc
          rw [hkey, List.length_append, List.length_singleton] at hlen
          omega
      · rw [if_neg hdir] at hok
        exact absurd hok (by simp)

theorem copyDirPlace_zero (fs : FS) : copyDirPlace fs 0 := by
  intro src dst out out' r c hok _
  exact absurd hok (by simp [copyDirFS])

theorem copyEntriesPlace_of (fs : FS) (f : Nat) (hD : copyDirPlace fs f) :
    copyEntriesPlace fs f := by
  intro q dst names
  induction names with
  | nil =>
    intro out out' n r' c _ _ hn _
    exact absurd hn (by simp)
  | cons m rest ih =>
    intro out out' n r' c hok hnd hn hview
    simp only [copyEntriesFS] at hok
    have hndrest : rest.Nodup := (List.nodup_cons.1 hnd).2
    have hmnot : m ∉ rest := (List.nodup_cons.1 hnd).1
    rcases List.mem_cons.1 hn with rfl | hmem
    · -- the entry being placed is processed first
      simp only [viewEntry] at hview
      cases hlook : lookupFS fs (q ++ [n]) with
      | none =>
        rw [hlook] at hview
        exact absurd hview (by simp)
      | some node =>
        rw [hlook] at hok hview
        cases node with
        | dir =>
          dsimp only at hview
          cases hchild : copyDirFS fs f (q ++ [n]) (dst ++ [n]) out with
          | error e =>
            rw [hchild] at hok
            exact absurd hok (by simp)
          | ok out2 =>
            rw [hchild] at hok
            have hplace := hD _ _ _ _ _ _ hchild hview
            rw [copyEntriesFS_skips fs f q dst rest out2 out' n r' hok hmnot]
            simpa using hplace
        | file c0 =>
          dsimp only at hview
          by_cases hr : r' = []
          · subst hr
            rw [if_pos rfl] at hview
            injection hview with hc0
            subst hc0
            rw [copyEntriesFS_skips fs f q dst rest _ out' n [] hok hmnot]
            simp [lookupFS]
          · rw [if_neg hr] at hview
            exact absurd hview (by simp)
        | symlink ab t =>
          dsimp only at hview hok
          cases hdir : isDirFS fs f (resolveTarget (q ++ [n]) ab t) with
          | true =>
            rw [hdir] at hview hok
            simp only [if_true] at hview hok
            cases hchild : copyDirFS fs f (resolveTarget (q ++ [n]) ab t)
                (dst ++ [n]) out with
            | error e =>
              rw [hchild] at hok
              exact absurd hok (by simp)
            | ok out2 =>
              rw [hchild] at hok
              have hplace := hD _ _ _ _ _ _ hchild hview
              rw [copyEntriesFS_skips fs f q dst rest out2 out' n r' hok hmnot]
              simpa using hplace
          | false =>
            rw [hdir] at hview hok
            simp only [Bool.false_eq_true, if_false] at hview hok
            by_cases hr : r' = []
            · subst hr
              rw [if_pos rfl] at hview
              cases hread : readFileFS fs f (resolveTarget (q ++ [n]) ab t) with
              | none =>
                rw [hread] at hok
                exact absurd hok (by simp)
              | some c1 =>
                rw [hread] at hok
                rw [hread] at hview
                injection hview with hc1
                subst hc1
                rw [copyEntriesFS_skips fs f q dst rest _ out' n [] hok hmnot]
                simp [lookupFS]
            · rw [if_neg hr] at hview
              exact absurd hview (by simp)
    · -- the entry being placed comes later: step over the head entry
      have hnm : n ≠ m := fun heq => hmnot (heq ▸ hmem)
      cases hlook : lookupFS fs (q ++ [m]) with
      | none =>
        rw [hlook] at hok
        exact absurd hok (by simp)
      | some node =>
        rw [hlook] at hok
        cases node with
        | dir =>
          cases hchild : copyDirFS fs f (q ++ [m]) (dst ++ [m]) out with
          | error e =>
            rw [hchild] at hok
            exact absurd hok (by simp)
          | ok out2 =>
            rw [hchild] at hok
            exact ih out2 out' n r' c hok hndrest hmem hview
        | file c0 =>
          exact ih _ out' n r' c hok hndrest hmem hview
        | symlink ab t =>
          dsimp only at hok
          cases hdir : isDirFS fs f (resolveTarget (q ++ [m]) ab t) with
          | true =>
            rw [hdir] at hok
            simp only [if_true] at hok
            cases hchild : copyDirFS fs f (resolveTarget (q ++ [m]) ab t)
                (dst ++ [m]) out with
            | error e =>
              rw [hchild] at hok
              exact absurd hok (by simp)
            | ok out2 =>
              rw [hchild] at hok
              exact ih out2 out' n r' c hok hndrest hmem hview
          | false =>
            rw [hdir] at hok
            simp only [Bool.false_eq_true, if_false] at hok
            cases hread : readFileFS fs f (resolveTarget (q ++ [m]) ab t) with
            | none =>
              rw [hread] at hok
              exact absurd hok (by simp)
            | some c1 =>
              rw [hread] at hok
              exact ih _ out' n r' c hok hndrest hmem hview

theorem copyDirPlace_succ (fs : FS) (f : Nat) (hkn : keysNodup fs)
    (hEp : copyEntriesPlace fs f) : copyDirPlace fs (Nat.succ f) := by
  intro src dst out out' r c hok hview
  simp only [copyDirFS] at hok
  simp only [viewFile] at hview
  cases hstat : statPath fs f src with
  | none =>
    rw [hstat] at hview
    exact absurd hview (by simp)
  | some q =>
    rw [hstat] at hok hview
    dsimp only at hok hview
    by_cases hdir : lookupFS fs q = some Node.dir
    · rw [if_pos hdir] at hok hview
      cases r with
      | nil => exact absurd hview (by simp)
      | cons n r' =>
        have hlooksome : (lookupFS fs (q ++ [n])).isSome = true := by
          simp only [viewEntry] at hview
          cases hl : lookupFS fs (q ++ [n]) with
          | none =>
            rw [hl] at hview
            exact absurd hview (by simp)
          | some _ => rfl
        exact hEp q dst (childNames fs q) (createDirAllFS fs out dst) out' n r' c
          hok (childNames_nodup hkn q) (mem_childNames hlooksome) hview
    · rw [if_neg hdir] at hview
      exact absurd hview (by simp)

theorem copyPlace_all (fs : FS) (hkn : keysNodup fs) :
    ∀ f, copyDirPlace fs f ∧ copyEntriesPlace fs f := by
  intro f
  induction f with
  | zero =>
    exact ⟨copyDirPlace_zero fs, copyEntriesPlace_of fs 0 (copyDirPlace_zero fs)⟩
  | succ f ih =>
    have hD := copyDirPlace_succ fs f hkn ih.2
    exact ⟨hD, copyEntriesPlace_of fs (Nat.succ f) hD⟩

theorem copyEntriesDirNode_all (fs : FS) (f : Nat) : copyEntriesDirNode fs f := by
  intro q dst names
  induction names with
  | nil =>
    intro out out' n _ _ hn
    exact absurd hn (by simp)
  | cons m rest ih =>
    intro out out' n hok hnd hn hkind hfs hout
    simp only [copyEntriesFS] at hok
    have hndrest : rest.Nodup := (List.nodup_cons.1 hnd).2
    have hmnot : m ∉ rest := (List.nodup_cons.1 hnd).1
    rcases List.mem_cons.1 hn with rfl | hmem
    · rcases hkind with hkd | ⟨ab, t, hks, hkdir⟩
      · rw [hkd] at hok
        cases hchild : copyDirFS fs f (q ++ [n]) (dst ++ [n]) out with
        | error e =>
          rw [hchild] at hok
          exact absurd hok (by simp)
        | ok out2 =>
          rw [hchild] at hok
          have hcreate := copyDirFS_creates fs f (q ++ [n]) (dst ++ [n]) out out2
            hchild (by simp) hfs hout
          have := copyEntriesFS_skips fs f q dst rest out2 out' n [] hok hmnot
          rw [show dst ++ n :: ([] : Path) = dst ++ [n] from rfl] at this
          rw [this]
          exact hcreate
      · rw [hks] at hok
        dsimp only at hok
        rw [hkdir] at hok
        simp only [if_true] at hok
        cases hchild : copyDirFS fs f (resolveTarget (q ++ [n]) ab t)
            (dst ++ [n]) out with
        | error e =>
          rw [hchild] at hok
          exact absurd hok (by simp)
        | ok out2 =>
          rw [hchild] at hok
          have hcreate := copyDirFS_creates fs f _ (dst ++ [n]) out out2
            hchild (by simp) hfs hout
          have := copyEntriesFS_skips fs f q dst rest out2 out' n [] hok hmnot
          rw [show dst ++ n :: ([] : Path) = dst ++ [n] from rfl] at this
          rw [this]
          exact hcreate
    · -- step over the head entry, which cannot touch `dst ++ [n]`
      have hnm : n ≠ m := fun heq => hmnot (heq ▸ hmem)
      cases hlook : lookupFS fs (q ++ [m]) with
      | none =>
        rw [hlook] at hok
        exact absurd hok (by simp)
      | some node =>
        rw [hlook] at hok
        cases node with
        | dir =>
          cases hchild : copyDirFS fs f (q ++ [m]) (dst ++ [m]) out with
          | error e =>
            rw [hchild] at hok
            exact absurd hok (by simp)
          | ok out2 =>
            rw [hchild] at hok
            have hout2 : lookupFS out2 (dst ++ [n]) = none := by
              obtain ⟨Δ1, hΔ1, _, hcmp1, _⟩ :=
                (copyDelta_all fs f).1 _ _ _ _ hchild
              rw [hΔ1]
              rw [lookupFS_append_skip ?_]
              · exact hout
              · intro e he
                exact @ne_snoc_cons_of_comparable dst m n [] e.1
                  (hcmp1 e he) (Ne.symm hnm)
            exact ih out2 out' n hok hndrest hmem hkind hfs hout2
        | file c0 =>
          have hout2 : lookupFS ((dst ++ [m], Node.file c0) :: out)
              (dst ++ [n]) = none := by
            simp only [lookupFS]
            rw [if_neg ?_]
            · exact hout
            · intro hkey
              exact hnm (head_eq_of_isPrefixList_append
                (by rw [show dst ++ [m] = dst ++ m :: ([] : Path) from rfl,
                  show dst ++ [n] = dst ++ n :: ([] : Path) from rfl] at hkey
                    ⊢
                    rw [hkey]
                    exact isPrefixList_refl _)).symm
          exact ih _ out' n hok hndrest hmem hkind hfs hout2
        | symlink ab t =>
          dsimp only at hok
          cases hdir : isDirFS fs f (resolveTarget (q ++ [m]) ab t) with
          | true =>
            rw [hdir] at hok
            simp only [if_true] at hok
            cases hchild : copyDirFS fs f (resolveTarget (q ++ [m]) ab t)
                (dst ++ [m]) out with
            | error e =>
              rw [hchild] at hok
              exact absurd hok (by simp)
            | ok out2 =>
              rw [hchild] at hok
              have hout2 : lookupFS out2 (dst ++ [n]) = none := by
                obtain ⟨Δ1, hΔ1, _, hcmp1, _⟩ :=
                  (copyDelta_all fs f).1 _ _ _ _ hchild
                rw [hΔ1]
                rw [lookupFS_append_skip ?_]
                · exact hout
                · intro e he
                  exact @ne_snoc_cons_of_comparable dst m n [] e.1
                    (hcmp1 e he) (Ne.symm hnm)
              exact ih out2 out' n hok hndrest hmem hkind hfs hout2
          | false =>
            rw [hdir] at hok
            simp only [Bool.false_eq_true, if_false] at hok
            cases hread : readFileFS fs f (resolveTarget (q ++ [m]) ab t) with
            | none =>
              rw [hread] at hok
              exact absurd hok (by simp)
            | some c1 =>
              rw [hread] at hok
              have hout2 : lookupFS ((dst ++ [m], Node.file c1) :: out)
                  (dst ++ [n]) = none := by
                simp only [lookupFS]
                rw [if_neg ?_]
                · exact hout
                · intro hkey
                  exact hnm (head_eq_of_isPrefixList_append
                    (by rw [show dst ++ [m] = dst ++ m :: ([] : Path) from rfl,
                      show dst ++ [n] = dst ++ n :: ([] : Path) from rfl] at hkey
                        ⊢
                        rw [hkey]
                        exact isPrefixList_refl _)).symm
              exact ih _ out' n hok hndrest hmem hkind hfs hout2

/-- Claim C3: for a symbolic link in the source tree (absolute or relative
target), the recursive copy resolves the link — a relative target against the
link's own parent directory — and places a real directory (recursing, with
all resolved file content below it identical to the source view) when the
resolved target is a directory, and a real file with identical content
otherwise; and the staged tree contains no symbolic links at all. -/
theorem C3_symlink_resolution
    (fs out' : FS) (f : Nat) (src dst q : Path) (n : String) (ab : Bool)
    (t : Path)
    (hkn : keysNodup fs)
    (hcopy : copyDirFS fs (Nat.succ f) src dst [] = Except.ok out')
    (hq : statPath fs f src = some q)
    (hqdir : lookupFS fs q = some Node.dir)
    (hn : lookupFS fs (q ++ [n]) = some (Node.symlink ab t))
    (hfresh : lookupFS fs (dst ++ [n]) = none) :
    (∀ p v, lookupFS out' p = some v → ∀ ab' t', v ≠ Node.symlink ab' t') ∧
    (isDirFS fs f (resolveTarget (q ++ [n]) ab t) = true →
      lookupFS out' (dst ++ [n]) = some Node.dir ∧
      (∀ r c, viewFile fs f (resolveTarget (q ++ [n]) ab t) r = some c →
        lookupFS out' (dst ++ n :: r) = some (Node.file c))) ∧
    (isDirFS fs f (resolveTarget (q ++ [n]) ab t) = false →
      ∀ c, readFileFS fs f (resolveTarget (q ++ [n]) ab t) = some c →
        lookupFS out' (dst ++ [n]) = some (Node.file c)) := by
  have hnosym : ∀ p v, lookupFS out' p = some v →
      ∀ ab' t', v ≠ Node.symlink ab' t' := by
    intro p v hl ab' t'
    obtain ⟨Δ, hΔ, hns, _, _⟩ := (copyDelta_all fs (Nat.succ f)).1 src dst [] out' hcopy
    have hmem := lookupFS_mem hl
    rw [hΔ, List.append_nil] at hmem
    exact hns (p, v) hmem ab' t'
  -- expose the entries pass
  simp only [copyDirFS] at hcopy
  rw [hq] at hcopy
  dsimp only at hcopy
  rw [if_pos hqdir] at hcopy
  have hnmem : n ∈ childNames fs q := mem_childNames (by rw [hn]; rfl)
  have hnodup := childNames_nodup hkn q
  have hout0 : lookupFS (createDirAllFS fs [] dst) (dst ++ [n]) = none := by
    obtain ⟨Δc, hΔc, hpc⟩ := foldl_createDirStep_delta fs (prefixesOf dst) []
    rw [show createDirAllFS fs [] dst =
      (prefixesOf dst).foldl (createDirStep fs) [] from rfl, hΔc, List.append_nil]
    apply lookupFS_eq_none
    intro e he hkey
    have hpre := (mem_prefixesOf.1 (hpc e he).2).2
    have hlen := length_le_of_isPrefixList hpre
    rw [hkey, List.length_append, List.length_singleton] at hlen
    omega
  refine ⟨hnosym, ?_, ?_⟩
  · intro hdirT
    constructor
    · exact copyEntriesDirNode_all fs f q dst (childNames fs q) _ out' n hcopy
        hnodup hnmem (Or.inr ⟨ab, t, hn, hdirT⟩) hfresh hout0
    · intro r c hv
      apply (copyPlace_all fs hkn f).2 q dst (childNames fs q) _ out' n r c hcopy
        hnodup hnmem
      simp only [viewEntry]
      rw [hn]
      dsimp only
      rw [hdirT]
      simp only [if_true]
      exact hv
  · intro hdirF c hread
    have := (copyPlace_all fs hkn f).2 q dst (childNames fs q) _ out' n [] c hcopy
      hnodup hnmem ?_
    · exact this
    · simp only [viewEntry]
      rw [hn]
      dsimp only
      rw [hdirF]
      simp only [Bool.false_eq_true, if_false, if_pos rfl]
      exact hread

/-- Claim C3 witness: the staged tree has a real directory at `d/current`
with the linked file content below it. -/
theorem C3_symlink_resolution_witness :
    lookupFS demoSymOut ["d", "current"] = some Node.dir ∧
    lookupFS demoSymOut ["d", "current", "x.txt"] = some (Node.file "hi".toList) := by
  have h := C3_symlink_resolution demoSymFS demoSymOut 4 ["s"] ["d"] ["s"]
    "current" false ["v2"] (by unfold keysNodup; decide) rfl rfl rfl rfl rfl
  obtain ⟨-, hdirCase, -⟩ := h
  obtain ⟨hd, hf⟩ := hdirCase rfl
  exact ⟨hd, hf ["x.txt"] "hi".toList rfl⟩

/-! ### `remove_dir_all` lemmas -/

theorem lookupFS_filter_neg (fs : FS) (pred : Path → Bool) (p : Path)
    (hpred : pred p = false) :
    lookupFS (fs.filter (fun e => pred e.1)) p = none := by
  apply lookupFS_eq_none
  intro e he hkey
  have hmem := List.of_mem_filter he
  rw [hkey, hpred] at hmem
  exact absurd hmem (by simp)

theorem removeSubtree_append (root : Path) (xs ys : FS) :
    removeSubtree root (xs ++ ys) =
      removeSubtree root xs ++ removeSubtree root ys := by
  unfold removeSubtree
  exact List.filter_append xs ys

theorem removeSubtree_eq_nil (root : Path) (xs : FS)
    (h : ∀ e ∈ xs, isPrefixList root e.1 = true) :
    removeSubtree root xs = [] := by
  unfold removeSubtree
  induction xs with
  | nil => rfl
  | cons e rest ih =>
    rw [List.filter_cons, if_neg (by simp [h e (List.mem_cons_self _ _)])]
    exact ih (fun e' he' => h e' (List.mem_cons_of_mem _ he'))

theorem removeSubtree_eq_self (root : Path) (xs : FS)
    (h : ∀ e ∈ xs, isPrefixList root e.1 = false) :
    removeSubtree root xs = xs := by
  unfold removeSubtree
  induction xs with
  | nil => rfl
  | cons e rest ih =>
    rw [List.filter_cons, if_pos (by simp [h e (List.mem_cons_self _ _)])]
    rw [ih (fun e' he' => h e' (List.mem_cons_of_mem _ he'))]

theorem removeSubtree_idem (root : Path) (fs : FS) :
    removeSubtree root (removeSubtree root fs) = removeSubtree root fs := by
  apply removeSubtree_eq_self
  intro e he
  have := List.of_mem_filter he
  cases hx : isPrefixList root e.1 with
  | false => rfl
  | true => rw [hx] at this; exact absurd this (by simp)

theorem removeSubtree_cons_below (root : Path) (k : Path) (v : Node)
    (fs : FS) (h : isPrefixList root k = true) :
    removeSubtree root ((k, v) :: fs) = removeSubtree root fs := by
  unfold removeSubtree
  rw [List.filter_cons, if_neg (by simp [h])]

/-- Under a strict prefix the whole-path prefix test must fail. -/
theorem isPrefixList_staged_strict {staged p : Path}
    (hp : isPrefixList p staged = true) (hne : p ≠ staged) :
    isPrefixList staged p = false := by
  cases hx : isPrefixList staged p with
  | false => rfl
  | true =>
    exact absurd (eq_of_isPrefixList_of_length hp
      (length_le_of_isPrefixList hx)) hne

theorem lookupFS_isSome_append_left (xs ys : FS) (p : Path)
    (h : (lookupFS xs p).isSome = true) :
    (lookupFS (xs ++ ys) p).isSome = true := by
  rw [lookupFS_append]
  cases hx : lookupFS xs p with
  | none => rw [hx] at h; exact absurd h (by simp)
  | some v => rfl

/-- Deconstruction of a successful `prepareMlxCSource` run into its five
steps (removal, recursive copy, `patches` directory, patch-asset copy,
descriptor rewrite). -/
theorem prepareMlxCSource_parts (fs : FS) (outDir : Path) (fuel : Nat)
    (fs' : FS) (staged : Path)
    (hp : prepareMlxCSource fs outDir fuel = Except.ok (fs', staged)) :
    staged = outDir ++ ["mlx-c-staged"] ∧
    ∃ (fs1 out : FS) (pc cc : List Char),
      fs1 = (if existsFS fs fuel (outDir ++ ["mlx-c-staged"]) then
        removeSubtree (outDir ++ ["mlx-c-staged"]) fs else fs) ∧
      copyDirFS fs1 fuel vendoredPath (outDir ++ ["mlx-c-staged"]) [] =
        Except.ok out ∧
      readFileFS (createDirAllFS [] (out ++ fs1)
          ((outDir ++ ["mlx-c-staged"]) ++ ["patches"])) fuel patchAssetPath =
        some pc ∧
      readFileFS (((outDir ++ ["mlx-c-staged"]) ++
            ["patches", "metallib-search-path.patch"], Node.file pc) ::
          createDirAllFS [] (out ++ fs1)
            ((outDir ++ ["mlx-c-staged"]) ++ ["patches"])) fuel
          ((outDir ++ ["mlx-c-staged"]) ++ ["CMakeLists.txt"]) = some cc ∧
      fs' = ((outDir ++ ["mlx-c-staged"]) ++ ["CMakeLists.txt"],
          Node.file (injectPatchDirective cc)) ::
        ((outDir ++ ["mlx-c-staged"]) ++
          ["patches", "metallib-search-path.patch"], Node.file pc) ::
        createDirAllFS [] (out ++ fs1)
          ((outDir ++ ["mlx-c-staged"]) ++ ["patches"]) := by
  simp only [prepareMlxCSource] at hp
  generalize hfs1 : (if existsFS fs fuel (outDir ++ ["mlx-c-staged"]) then
    removeSubtree (outDir ++ ["mlx-c-staged"]) fs else fs) = fs1 at hp
  cases hcopy : copyDirFS fs1 fuel vendoredPath (outDir ++ ["mlx-c-staged"]) []
      with
  | error e =>
    rw [hcopy] at hp
    exact absurd hp (by simp)
  | ok out =>
    rw [hcopy] at hp
    dsimp only at hp
    cases hpc : readFileFS (createDirAllFS [] (out ++ fs1)
        ((outDir ++ ["mlx-c-staged"]) ++ ["patches"])) fuel patchAssetPath with
    | none =>
      rw [hpc] at hp
      exact absurd hp (by simp)
    | some pc =>
      rw [hpc] at hp
      dsimp only at hp
      cases hcc : readFileFS (((outDir ++ ["mlx-c-staged"]) ++
            ["patches", "metallib-search-path.patch"], Node.file pc) ::
          createDirAllFS [] (out ++ fs1)
            ((outDir ++ ["mlx-c-staged"]) ++ ["patches"])) fuel
          ((outDir ++ ["mlx-c-staged"]) ++ ["CMakeLists.txt"]) with
      | none =>
        rw [hcc] at hp
        exact absurd hp (by simp)
      | some cc =>
        rw [hcc] at hp
        dsimp only at hp
        injection hp with hp
        injection hp with hp1 hp2
        exact ⟨hp2.symm, fs1, out, pc, cc, rfl, hcopy, hpc, hcc, hp1.symm⟩

/-- Reassembly: the five steps determine a successful `prepareMlxCSource`
run. -/
theorem prepareMlxCSource_of_parts (gs fs1 out : FS) (outDir : Path)
    (fuel : Nat) (pc cc : List Char)
    (hex : existsFS gs fuel (outDir ++ ["mlx-c-staged"]) = true)
    (hrem : removeSubtree (outDir ++ ["mlx-c-staged"]) gs = fs1)
    (hcopy : copyDirFS fs1 fuel vendoredPath (outDir ++ ["mlx-c-staged"]) [] =
      Except.ok out)
    (hpc : readFileFS (createDirAllFS [] (out ++ fs1)
        ((outDir ++ ["mlx-c-staged"]) ++ ["patches"])) fuel patchAssetPath =
      some pc)
    (hcc : readFileFS (((outDir ++ ["mlx-c-staged"]) ++
          ["patches", "metallib-search-path.patch"], Node.file pc) ::
        createDirAllFS [] (out ++ fs1)
          ((outDir ++ ["mlx-c-staged"]) ++ ["patches"])) fuel
        ((outDir ++ ["mlx-c-staged"]) ++ ["CMakeLists.txt"]) = some cc) :
    prepareMlxCSource gs outDir fuel = Except.ok
      (((outDir ++ ["mlx-c-staged"]) ++ ["CMakeLists.txt"],
          Node.file (injectPatchDirective cc)) ::
        ((outDir ++ ["mlx-c-staged"]) ++
          ["patches", "metallib-search-path.patch"], Node.file pc) ::
        createDirAllFS [] (out ++ fs1)
          ((outDir ++ ["mlx-c-staged"]) ++ ["patches"]),
        outDir ++ ["mlx-c-staged"]) := by
  simp only [prepareMlxCSource]
  rw [if_pos hex, hrem, hcopy]
  dsimp only
  rw [hpc]
  dsimp only
  rw [hcc]

/-- Claim C5: no write of the pipeline ever targets a path inside the
Vendored Source Tree `src/mlx-c` — after `prepare_mlx_c_source` runs, every
path below the vendored tree has exactly the content it had before.  The
staging directory (under the cargo scratch directory) is assumed disjoint
from the vendored tree, which cargo guarantees. -/
theorem C5_vendored_frame (fs : FS) (outDir : Path) (fuel : Nat)
    (fs' : FS) (staged : Path)
    (h1 : isPrefixList (outDir ++ ["mlx-c-staged"]) vendoredPath = false)
    (h2 : isPrefixList vendoredPath (outDir ++ ["mlx-c-staged"]) = false)
    (hp : prepareMlxCSource fs outDir fuel = Except.ok (fs', staged)) :
    ∀ p, isPrefixList vendoredPath p = true → lookupFS fs' p = lookupFS fs p := by
  obtain ⟨hstaged, fs1, out, pc, cc, hfs1, hcopy, hpc, hcc, hfs'⟩ :=
    prepareMlxCSource_parts fs outDir fuel fs' staged hp
  intro p hvp
  -- a key comparable with the staging root can never lie in the vendored tree
  have hkey : ∀ k : Path,
      isPrefixList (outDir ++ ["mlx-c-staged"]) k = true ∨
        isPrefixList k (outDir ++ ["mlx-c-staged"]) = true → k ≠ p := by
    intro k hcmp hkp
    subst hkp
    rcases hcmp with hc | hc
    · rcases isPrefixList_comparable_of_common hc hvp with hcc' | hcc'
      · rw [hcc'] at h1; exact absurd h1 (by simp)
      · rw [hcc'] at h2; exact absurd h2 (by simp)
    · have := isPrefixList_trans hvp hc
      rw [this] at h2
      exact absurd h2 (by simp)
  have hstagpre : isPrefixList (outDir ++ ["mlx-c-staged"]) p = false := by
    cases hx : isPrefixList (outDir ++ ["mlx-c-staged"]) p with
    | false => rfl
    | true => exact absurd rfl (hkey p (Or.inl hx))
  -- step through the writes
  rw [hfs']
  simp only [lookupFS]
  rw [if_neg (hkey _ (Or.inl (isPrefixList_append _ _)))]
  rw [if_neg (hkey _ (Or.inl (isPrefixList_append _ _)))]
  obtain ⟨Δc2, hΔc2, hpc2⟩ := foldl_createDirStep_delta ([] : FS)
    (prefixesOf ((outDir ++ ["mlx-c-staged"]) ++ ["patches"])) (out ++ fs1)
  rw [show createDirAllFS [] (out ++ fs1)
      ((outDir ++ ["mlx-c-staged"]) ++ ["patches"]) =
    Δc2 ++ (out ++ fs1) from hΔc2]
  rw [lookupFS_append_skip ?_]
  · -- the copy writes are comparable with the staging root too
    obtain ⟨Δ, hΔ, _, hcmp, _⟩ :=
      (copyDelta_all fs1 fuel).1 vendoredPath (outDir ++ ["mlx-c-staged"]) []
        out hcopy
    rw [List.append_nil] at hΔ
    rw [hΔ, lookupFS_append_skip (fun e he => hkey e.1 (hcmp e he))]
    -- and the pre-copy removal never touches the vendored tree
    rw [hfs1]
    by_cases hex : existsFS fs fuel (outDir ++ ["mlx-c-staged"]) = true
    · rw [if_pos hex]
      unfold removeSubtree
      exact lookupFS_filter_pos fs
        (fun k => !isPrefixList (outDir ++ ["mlx-c-staged"]) k) p
        (by simp [hstagpre])
    · rw [if_neg hex]
  · intro e he
    apply hkey
    exact comparable_of_comparable_snoc (Or.inr (mem_prefixesOf.1 (hpc2 e he).2).2)

/-- Claim C7: staging is idempotent.  Running `prepare_mlx_c_source` on the
result of a previous run reproduces exactly the same filesystem — in
particular byte-identical staged trees — and any file planted under the
staging directory between runs is removed (the destination is cleaned in
full before copying), so nothing stale survives.  Hypotheses: the staging
directory's ancestors exist, and an absent staging directory has no orphan
entries below it (plain filesystem well-formedness). -/
theorem C7_staging_idempotent (fs : FS) (outDir : Path) (fuel : Nat)
    (fs' : FS) (staged : Path)
    (hanc : ∀ q ∈ prefixesOf (outDir ++ ["mlx-c-staged"]),
      q ≠ outDir ++ ["mlx-c-staged"] → (lookupFS fs q).isSome = true)
    (hwf : existsFS fs fuel (outDir ++ ["mlx-c-staged"]) = false →
      ∀ e ∈ fs, isPrefixList (outDir ++ ["mlx-c-staged"]) e.1 = false)
    (hp : prepareMlxCSource fs outDir fuel = Except.ok (fs', staged)) :
    prepareMlxCSource fs' outDir fuel = Except.ok (fs', staged) ∧
    ∀ (m : String) (sub : Path) (v : Node),
      prepareMlxCSource ((staged ++ m :: sub, v) :: fs') outDir fuel =
        Except.ok (fs', staged) := by
  obtain ⟨hstaged, fs1, out, pc, cc, hfs1, hcopy, hpc, hcc, hfs'⟩ :=
    prepareMlxCSource_parts fs outDir fuel fs' staged hp
  subst hstaged
  -- lookups outside the staging subtree are unchanged by the removal
  have hfs1look : ∀ q, isPrefixList (outDir ++ ["mlx-c-staged"]) q = false →
      lookupFS fs1 q = lookupFS fs q := by
    intro q hq
    rw [hfs1]
    by_cases hex : existsFS fs fuel (outDir ++ ["mlx-c-staged"]) = true
    · rw [if_pos hex]
      unfold removeSubtree
      exact lookupFS_filter_pos fs
        (fun k => !isPrefixList (outDir ++ ["mlx-c-staged"]) k) q (by simp [hq])
    · rw [if_neg hex]
  -- the staging root itself is absent after the removal
  have hfs1staged : lookupFS fs1 (outDir ++ ["mlx-c-staged"]) = none := by
    rw [hfs1]
    by_cases hex : existsFS fs fuel (outDir ++ ["mlx-c-staged"]) = true
    · rw [if_pos hex]
      unfold removeSubtree
      exact lookupFS_filter_neg fs
        (fun k => !isPrefixList (outDir ++ ["mlx-c-staged"]) k) _
        (by simp [isPrefixList_refl])
    · rw [if_neg hex]
      cases hl : lookupFS fs (outDir ++ ["mlx-c-staged"]) with
      | none => rfl
      | some v =>
        have hex' : existsFS fs fuel (outDir ++ ["mlx-c-staged"]) = false := by
          cases hx : existsFS fs fuel (outDir ++ ["mlx-c-staged"]) with
          | false => rfl
          | true => exact absurd hx hex
        have := hwf hex' _ (lookupFS_mem hl)
        rw [isPrefixList_refl] at this
        exact absurd this (by simp)
  -- ancestors of the staging root survive the removal
  have hfs1anc : ∀ q ∈ prefixesOf (outDir ++ ["mlx-c-staged"]),
      q ≠ outDir ++ ["mlx-c-staged"] → (lookupFS fs1 q).isSome = true := by
    intro q hqm hqne
    rw [hfs1look q (isPrefixList_staged_strict (mem_prefixesOf.1 hqm).2 hqne)]
    exact hanc q hqm hqne
  -- every entry written by the recursive copy lies inside the staging root
  have houtpre : ∀ e ∈ out,
      isPrefixList (outDir ++ ["mlx-c-staged"]) e.1 = true := by
    obtain ⟨Δ, hΔ, _, _, hcond⟩ := (copyDelta_all fs1 fuel).1 vendoredPath
      (outDir ++ ["mlx-c-staged"]) [] out hcopy
    rw [List.append_nil] at hΔ
    intro e he
    refine hcond ?_ e (by rw [← hΔ]; exact he)
    intro p hpm hpne
    exact Or.inr (hfs1anc p hpm hpne)
  -- the copy created the staging root directory
  have hstagedir : lookupFS out (outDir ++ ["mlx-c-staged"]) = some Node.dir :=
    copyDirFS_creates fs1 fuel vendoredPath _ [] out hcopy (by simp)
      hfs1staged rfl
  -- under present ancestors, `create_dir_all patches` writes only `patches`
  have hside : ∀ q ∈ prefixesOf ((outDir ++ ["mlx-c-staged"]) ++ ["patches"]),
      (lookupFS (out ++ fs1) q).isSome = true ∨
        (lookupFS ([] : FS) q).isSome = true ∨
        q = (outDir ++ ["mlx-c-staged"]) ++ ["patches"] := by
    intro q hqm
    by_cases hqs : q = (outDir ++ ["mlx-c-staged"]) ++ ["patches"]
    · exact Or.inr (Or.inr hqs)
    · have hqm' := mem_prefixesOf_snoc hqm hqs
      by_cases hqS : q = outDir ++ ["mlx-c-staged"]
      · subst hqS
        exact Or.inl (lookupFS_isSome_append_left out fs1 _
          (by rw [hstagedir]; rfl))
      · exact Or.inl (lookupFS_isSome_append out fs1 q (hfs1anc q hqm' hqS))
  obtain ⟨Δc2, hΔc2, hpc2⟩ := foldl_createDirStep_sub ([] : FS)
    ((outDir ++ ["mlx-c-staged"]) ++ ["patches"])
    (prefixesOf ((outDir ++ ["mlx-c-staged"]) ++ ["patches"])) (out ++ fs1) hside
  have hΔc2' : createDirAllFS [] (out ++ fs1)
      ((outDir ++ ["mlx-c-staged"]) ++ ["patches"]) = Δc2 ++ (out ++ fs1) :=
    hΔc2
  -- the staging root is a directory in the final state
  have hk1 : (outDir ++ ["mlx-c-staged"]) ++ ["CMakeLists.txt"] ≠
      outDir ++ ["mlx-c-staged"] := by
    intro h
    have := congrArg List.length h
    simp at this
  have hk2 : (outDir ++ ["mlx-c-staged"]) ++
      ["patches", "metallib-search-path.patch"] ≠
      outDir ++ ["mlx-c-staged"] := by
    intro h
    have := congrArg List.length h
    simp at this
  have hskip : ∀ e ∈ Δc2, e.1 ≠ outDir ++ ["mlx-c-staged"] := by
    intro e he h
    have := (hpc2 e he).1
    rw [h] at this
    have := congrArg List.length this
    simp at this
  have hlookS : lookupFS fs' (outDir ++ ["mlx-c-staged"]) = some Node.dir := by
    rw [hfs']
    simp only [lookupFS]
    rw [if_neg hk1, if_neg hk2, hΔc2', lookupFS_append_skip hskip,
      lookupFS_append, hstagedir]
  have hex2 : existsFS fs' fuel (outDir ++ ["mlx-c-staged"]) = true := by
    unfold existsFS
    rw [statPath, hlookS]
    rfl
  -- cleaning the staged state removes exactly the first run's writes
  have hremfs1 : removeSubtree (outDir ++ ["mlx-c-staged"]) fs1 = fs1 := by
    rw [hfs1]
    by_cases hex : existsFS fs fuel (outDir ++ ["mlx-c-staged"]) = true
    · rw [if_pos hex]
      exact removeSubtree_idem _ _
    · rw [if_neg hex]
      apply removeSubtree_eq_self
      intro e he
      refine hwf ?_ e he
      cases hx : existsFS fs fuel (outDir ++ ["mlx-c-staged"]) with
      | false => rfl
      | true => exact absurd hx hex
  have hrem2 : removeSubtree (outDir ++ ["mlx-c-staged"]) fs' = fs1 := by
    rw [hfs']
    rw [removeSubtree_cons_below _ _ _ _ (isPrefixList_append _ _)]
    rw [removeSubtree_cons_below _ _ _ _ (isPrefixList_append _ _)]
    rw [hΔc2', removeSubtree_append, removeSubtree_append]
    rw [removeSubtree_eq_nil _ Δc2 (fun e he => by
      rw [(hpc2 e he).1]; exact isPrefixList_append _ _)]
    rw [removeSubtree_eq_nil _ out houtpre]
    rw [hremfs1]
    rfl
  constructor
  · have hrun2 := prepareMlxCSource_of_parts fs' fs1 out outDir fuel pc cc
      hex2 hrem2 hcopy hpc hcc
    rw [hrun2, hfs']
  · intro m sub v
    have hlookJ : lookupFS (((outDir ++ ["mlx-c-staged"]) ++ m :: sub, v) :: fs')
        (outDir ++ ["mlx-c-staged"]) = some Node.dir := by
      simp only [lookupFS]
      rw [if_neg ?_]
      · exact hlookS
      · intro h
        have := congrArg List.length h
        simp only [List.length_append, List.length_cons] at this
        omega
    have hexJ : existsFS (((outDir ++ ["mlx-c-staged"]) ++ m :: sub, v) :: fs')
        fuel (outDir ++ ["mlx-c-staged"]) = true := by
      unfold existsFS
      rw [statPath, hlookJ]
      rfl
    have hremJ : removeSubtree (outDir ++ ["mlx-c-staged"])
        (((outDir ++ ["mlx-c-staged"]) ++ m :: sub, v) :: fs') = fs1 := by
      rw [removeSubtree_cons_below _ _ _ _ (isPrefixList_append _ _)]
      exact hrem2
    have hrunJ := prepareMlxCSource_of_parts _ fs1 out outDir fuel pc cc
      hexJ hremJ hcopy hpc hcc
    rw [hrunJ, hfs']

/-- Claim C5 witness: the vendored build descriptor is untouched by a run. -/
theorem C5_vendored_frame_witness :
    lookupFS demoPrepOut ["src", "mlx-c", "CMakeLists.txt"] =
      lookupFS demoPrepFS ["src", "mlx-c", "CMakeLists.txt"] :=
  C5_vendored_frame demoPrepFS ["out"] 6 demoPrepOut ["out", "mlx-c-staged"]
    (by decide) (by decide) rfl ["src", "mlx-c", "CMakeLists.txt"] (by decide)

/-- Claim C7 witness: re-running staging reproduces the same state, and a
stale file planted in the staging directory does not survive. -/
theorem C7_staging_idempotent_witness :
    prepareMlxCSource demoPrepOut ["out"] 6 =
      Except.ok (demoPrepOut, ["out", "mlx-c-staged"]) ∧
    prepareMlxCSource ((["out", "mlx-c-staged", "stale.txt"],
        Node.file "junk".toList) :: demoPrepOut) ["out"] 6 =
      Except.ok (demoPrepOut, ["out", "mlx-c-staged"]) := by
  have h := C7_staging_idempotent demoPrepFS ["out"] 6 demoPrepOut
    ["out", "mlx-c-staged"] (by decide) (by decide) rfl
  exact ⟨h.1, h.2 "stale.txt" [] (Node.file "junk".toList)⟩

end MlxSys
